import Mathlib

/-!
# FITing-Tree: verification of the shrinking-cone segmentation and index queries

Shallow embedding of the FITing-Tree sources:

* `include/piecewise_linear_model.h` — `PiecewiseLinearModel` (the shrinking-cone
  segmenter) and the `get_all_segments` driver.
* `include/fiting_tree/fiting_tree.h` — the read-only `FitingTree` index and
  `get_approx_pos`.
* `include/fiting_tree/buffered_segment.h` and
  `include/fiting_tree/buffered_fiting_tree.h` — the updatable variant.

Modelling conventions:

* Keys (`X`/`KeyType`) and positions (`Y`/`PosType`) are modelled as `ℤ`.  All
  subtractions performed by the code on these values happen either in the
  widened signed domain (`SX`/`SY`, i.e. `int64_t`/`__int128`) or on paths where
  the unsigned difference is nonnegative, so `ℤ` is faithful on every path the
  theorems touch.
* `long double` slope arithmetic is modelled by exact `ℚ` arithmetic.  The only
  floating step of the algorithm is the final midpoint slope; the spec's `+1`
  slack exists solely to absorb that rounding, and the exact-rational model
  satisfies the stronger `≤ ε` bound.
* The C++ cast `(uint64_t)x` of a nonnegative `long double` is modelled by
  `Rat.floor` followed by `Int.toNat`.
* The STX B+ tree (`stx::btree`, ordered with `std::greater`) is not part of
  the sources; its `lower_bound`, which under the descending order returns the
  entry with the largest `start_key ≤ key`, is modelled from the spec (§4.3)
  as `predecessor` on the ascending list of segments.
-/

namespace FitModel

/-- Exact slope of `PiecewiseLinearModel::Slope`: the pair `{dx, dy}` of widened
signed differences (`SX`, `SY` — modelled as `ℤ`). -/
structure Slope where
  dx : ℤ
  dy : ℤ
deriving DecidableEq

/-- Model of `Slope::operator<`: the cross-multiplied comparison `dy·p.dx < dx·p.dy`. -/
def sLt (a b : Slope) : Bool := decide (a.dy * b.dx < a.dx * b.dy)

/-- Model of `Slope::operator>`: the cross-multiplied comparison `dy·p.dx > dx·p.dy`. -/
def sGt (a b : Slope) : Bool := decide (a.dy * b.dx > a.dx * b.dy)

/-- Model of `Slope::operator==`: the cross-multiplied comparison `dy·p.dx == dx·p.dy`. -/
def sEq (a b : Slope) : Bool := decide (a.dy * b.dx = a.dx * b.dy)

/-- Model of `Slope::operator long double()`: the exact rational value `dy / dx`. -/
def Slope.val (s : Slope) : ℚ := (s.dy : ℚ) / (s.dx : ℚ)

/-- Model of `PiecewiseLinearModel::Point`: a key paired with a widened position value. -/
structure Point where
  x : ℤ
  y : ℤ
deriving DecidableEq

/-- Model of `Point::operator-`: `{SX(x) - p.x, y - p.y}`. -/
def psub (a b : Point) : Slope := ⟨a.x - b.x, a.y - b.y⟩

/-- Model of `Segment<X, Y>` from `include/segment.h`: start key, start position, end
key and the finalized slope (`long double`, modelled as `ℚ`). -/
structure Segment where
  start_key : ℤ
  start_pos : ℤ
  end_key   : ℤ
  slope     : ℚ
deriving DecidableEq

/-- The mutable state of `PiecewiseLinearModel`. -/
structure PLM where
  error : ℤ
  first_point : Point
  last_point : Point
  lower_slope : Slope
  upper_slope : Slope
  points_in_segment : ℕ
deriving DecidableEq

/-- A freshly constructed `PiecewiseLinearModel(error)` (fields use the C++
default initializers; `lower_slope = {1, 0}`, `upper_slope = {0, 1}`). -/
def PLM.init (error : ℤ) : PLM :=
  ⟨error, ⟨0, 0⟩, ⟨0, 0⟩, ⟨1, 0⟩, ⟨0, 1⟩, 0⟩

/-- The constructor guard of `PiecewiseLinearModel`: it throws
`std::invalid_argument` exactly when `error < 0`. -/
def plmInitChecked (error : ℤ) : Option PLM :=
  if error < 0 then none else some (PLM.init error)

/-- Model of `PiecewiseLinearModel::add_point(x, y)`, returning the `bool` result
together with the updated state. -/
def PLM.addPoint (m : PLM) (x y : ℤ) : Bool × PLM :=
  let cp : Point := ⟨x, y⟩
  let p1 : Point := ⟨x, y + m.error⟩
  let p2 : Point := ⟨x, y - m.error⟩
  if m.points_in_segment = 0 then
    (true, { m with first_point := cp, last_point := cp,
                    lower_slope := ⟨1, 0⟩, upper_slope := ⟨0, 1⟩,
                    points_in_segment := 1 })
  else if m.points_in_segment = 1 then
    (true, { m with lower_slope := psub p2 m.first_point,
                    upper_slope := psub p1 m.first_point,
                    points_in_segment := 2,
                    last_point := cp })
  else
    let s := psub cp m.first_point
    if sLt s m.lower_slope || sGt s m.upper_slope then
      (false, { m with points_in_segment := 0 })
    else
      let m1 := if sLt (psub p1 m.first_point) m.upper_slope
                then { m with upper_slope := psub p1 m.first_point } else m
      let m2 := if sGt (psub p2 m1.first_point) m1.lower_slope
                then { m1 with lower_slope := psub p2 m1.first_point } else m1
      (true, { m2 with last_point := cp,
                       points_in_segment := m2.points_in_segment + 1 })

/-- Model of `PiecewiseLinearModel::get_segment()`: a degenerate slope-1 segment for a
single point, otherwise the midpoint of the final cone. -/
def PLM.getSegment (m : PLM) : Segment :=
  if m.points_in_segment = 1 then
    ⟨m.first_point.x, m.first_point.y, m.last_point.x, 1⟩
  else
    ⟨m.first_point.x, m.first_point.y, m.last_point.x,
     (m.upper_slope.val + m.lower_slope.val) / 2⟩

/-- The loop of `get_all_segments(n, error, in, out)` (piecewise_linear_model.h,
lines 156–170): `kv` is the last non-skipped pair, duplicates of its key are
skipped, and a rejected point is emitted-then-re-offered (the `--i` dance; the
re-offered point always anchors the next segment, which is inlined here). -/
def segLoop (m : PLM) (kv : ℤ × ℤ) : List (ℤ × ℤ) → List Segment → List Segment
  | [], acc => acc ++ [m.getSegment]
  | p :: rest, acc =>
    if p.1 = kv.1 then segLoop m kv rest acc
    else if (m.addPoint p.1 p.2).1 then segLoop (m.addPoint p.1 p.2).2 p rest acc
    else
      segLoop (((m.addPoint p.1 p.2).2).addPoint p.1 p.2).2 p rest
        (acc ++ [(m.addPoint p.1 p.2).2.getSegment])

/-- Model of `get_all_segments(n, error, in, out)`: returns the emitted segments in
emission order (the C++ version returns their count and emits through `out`). -/
def getAllSegments (e : ℤ) : List (ℤ × ℤ) → List Segment
  | [] => []
  | p :: rest => segLoop (((PLM.init e).addPoint p.1 p.2).2) p rest []

/-- The driver's input stream for a key array: `in_fun(i) = (data[i], i)`,
starting at index `i`. -/
def pairsFrom (i : ℤ) : List ℤ → List (ℤ × ℤ)
  | [] => []
  | k :: rest => (k, i) :: pairsFrom (i + 1) rest

/-- The full input stream `(data[i], i)` for `i ∈ [0, n)`. -/
def pairsOf (data : List ℤ) : List (ℤ × ℤ) := pairsFrom 0 data

/-- The dedup-free core of the driver loop: `segLoop` once consecutive
duplicate keys have been removed (proved equivalent in `segLoop_eq_segLoopS`). -/
def segLoopS (m : PLM) : List (ℤ × ℤ) → List Segment
  | [] => [m.getSegment]
  | p :: rest =>
    if (m.addPoint p.1 p.2).1 then segLoopS (m.addPoint p.1 p.2).2 rest
    else
      (m.addPoint p.1 p.2).2.getSegment ::
        segLoopS (((m.addPoint p.1 p.2).2).addPoint p.1 p.2).2 rest

/-- Remove from a stream every pair whose key equals the previously kept key,
starting from previous key `k` (the driver's `next_kv.first == kv.first` skip). -/
def dedupFrom (k : ℤ) : List (ℤ × ℤ) → List (ℤ × ℤ)
  | [] => []
  | p :: rest => if p.1 = k then dedupFrom k rest else p :: dedupFrom p.1 rest

/-- The deduplicated stream: the first pair is always kept. -/
def dedupAll : List (ℤ × ℤ) → List (ℤ × ℤ)
  | [] => []
  | p :: rest => p :: dedupFrom p.1 rest

/-- Strict key order on stream pairs. -/
def keyLT (p q : ℤ × ℤ) : Prop := p.1 < q.1

/-- Weak key order on stream pairs. -/
def keyLE (p q : ℤ × ℤ) : Prop := p.1 ≤ q.1

/-- The lower cone constraint contributed by point `p` against anchor `a`:
the exact slope of `p2 - first_point` where `p2 = (x, y - ε)`. -/
def lowC (e : ℤ) (a p : ℤ × ℤ) : ℚ := ((p.2 - e - a.2 : ℤ) : ℚ) / ((p.1 - a.1 : ℤ) : ℚ)

/-- The upper cone constraint contributed by point `p` against anchor `a`:
the exact slope of `p1 - first_point` where `p1 = (x, y + ε)`. -/
def upC (e : ℤ) (a p : ℤ × ℤ) : ℚ := ((p.2 + e - a.2 : ℤ) : ℚ) / ((p.1 - a.1 : ℤ) : ℚ)

/-- The linear prediction of segment `S` at key `k`:
`start_pos + slope·(k − start_key)`. -/
def predQ (S : Segment) (k : ℤ) : ℚ :=
  (S.start_pos : ℚ) + S.slope * ((k : ℚ) - (S.start_key : ℚ))

/-- Segment `S` predicts every point of `pts` within vertical error `e`. -/
def SegBound (e : ℤ) (S : Segment) (pts : List (ℤ × ℤ)) : Prop :=
  ∀ p ∈ pts, |(p.2 : ℚ) - predQ S p.1| ≤ (e : ℚ)

/-- The state invariant of the shrinking cone for an active segment whose
accepted points are the anchor `a` followed by `ps`. -/
structure Inv (e : ℤ) (m : PLM) (a : ℤ × ℤ) (ps : List (ℤ × ℤ)) : Prop where
  herr : m.error = e
  hcnt : m.points_in_segment = ps.length + 1
  hfp  : m.first_point = ⟨a.1, a.2⟩
  hlp  : m.last_point = ⟨(ps.getLastD a).1, (ps.getLastD a).2⟩
  hslopes : ps ≠ [] →
    0 < m.lower_slope.dx ∧ 0 < m.upper_slope.dx ∧
    m.lower_slope.val ≤ m.upper_slope.val ∧
    ∀ p ∈ ps, lowC e a p ≤ m.lower_slope.val ∧ m.upper_slope.val ≤ upC e a p

/-- The cone is consistent: whenever at least two points are in the segment,
the exact rational lower slope does not exceed the upper slope. -/
def ConeOK (m : PLM) : Prop :=
  2 ≤ m.points_in_segment →
    0 < m.lower_slope.dx ∧ 0 < m.upper_slope.dx ∧
    m.lower_slope.val ≤ m.upper_slope.val

/-- Relation stating that `segs` partitions `pts` into consecutive nonempty blocks, one per segment;
each segment starts at its block's first key, ends at its block's last key, and
predicts every point of its block within error `e`. -/
inductive Covers (e : ℤ) : List Segment → List (ℤ × ℤ) → Prop
  | nil : Covers e [] []
  | cons (S : Segment) (a : ℤ × ℤ) (ps rest : List (ℤ × ℤ)) (segs : List Segment) :
      S.start_key = a.1 →
      S.end_key = (ps.getLastD a).1 →
      SegBound e S (a :: ps) →
      Covers e segs rest →
      Covers e (S :: segs) ((a :: ps) ++ rest)

/-- Model of `FitingTree::ApproxPos` — NOTE the field order of the C++ struct is
`{pos, hi, lo}` (fiting_tree.h, lines 42–47). -/
structure ApproxPos where
  pos : ℕ
  hi : ℕ
  lo : ℕ
deriving DecidableEq

/-- The read-only `FitingTree` index: key count, first key, and the segments in
emission (ascending start-key) order. -/
structure FitingTreeM where
  n : ℕ
  first_key : ℤ
  segments : List Segment
deriving DecidableEq

/-- Modelled from the spec: `stx::btree` (ordered by `std::greater`) is not in
the sources; per §4.3 its `lower_bound(k)` under descending order returns the
entry with the largest `start_key ≤ k`, i.e. the predecessor segment.  On the
ascending list of segments that is the last segment with `start_key ≤ k`. -/
def predecessor (segs : List Segment) (k : ℤ) : Option Segment :=
  (segs.filter (fun S => decide (S.start_key ≤ k))).getLast?

/-- The C++ cast `(uint64_t)x` of a nonnegative `long double` value
(truncation; equal to the floor for the nonnegative values that occur). -/
def ratToU64 (q : ℚ) : ℕ := (Int.floor q).toNat

/-- The predicted position `(key - start_key) * slope + intercept` of
`get_approx_pos` (fiting_tree.h line 126). -/
def codePos (S : Segment) (key : ℤ) : ℚ :=
  ((key - S.start_key : ℤ) : ℚ) * S.slope + (S.start_pos : ℚ)

/-- The `FitingTree(first, last)` constructor: runs the segmenter on
`(data[i], i)` and stores the emitted segments (bulk-loaded reversed into the
descending directory, modelled by keeping the ascending list). -/
def buildFitingTree (E : ℕ) (data : List ℤ) : FitingTreeM :=
  { n := data.length
    first_key := data.headD 0
    segments := getAllSegments (E : ℤ) (pairsOf data) }

/-- Model of `FitingTree::get_approx_pos(key)` with the `ADD_ERR`/`SUB_ERR` clamping
macros; the result fields are ordered `{pos, hi, lo}` as in the C++ struct. -/
def getApproxPos (E : ℕ) (t : FitingTreeM) (key : ℤ) : ApproxPos :=
  if t.n = 0 then ⟨0, 0, 0⟩
  else
    match predecessor t.segments key with
    | none => ⟨0, E, 0⟩
    | some S =>
      if codePos S key - (E : ℚ) > (t.n : ℚ) then ⟨t.n - 1, t.n, t.n - 1⟩
      else
        ⟨ratToU64 (codePos S key),
         if codePos S key + (E : ℚ) ≥ (t.n : ℚ) then t.n
           else ratToU64 (codePos S key + (E : ℚ)),
         if codePos S key ≤ (E : ℚ) then 0 else ratToU64 (codePos S key - (E : ℚ))⟩

/-- Model of `BufferedSegment::DataItem`: key, position, deleted flag. -/
structure DataItem where
  key : ℤ
  pos : ℤ
  is_deleted : Bool
deriving DecidableEq

/-- Model of `BufferedSegment`: the segment fields plus the materialized `keys` vector,
the sorted insert `buffer` (`std::map<K, DataItem>` modelled as a key-sorted
association list of its values), the running `buffer_size` counter, and the
capacity `max_buffer_size`. -/
structure BufSeg where
  start_key : ℤ
  start_pos : ℤ
  end_key : ℤ
  slope : ℚ
  keys : List DataItem
  buffer : List DataItem
  buffer_size : ℕ
  max_buffer_size : ℕ
deriving DecidableEq

/-- Model of `std::map::insert({key, DataItem(key, pos)})`: inserts at the sorted
position; a no-op on the map when the key is already present. -/
def mapInsert (k p : ℤ) : List DataItem → List DataItem
  | [] => [⟨k, p, false⟩]
  | d :: rest =>
    if k < d.key then ⟨k, p, false⟩ :: d :: rest
    else if k = d.key then d :: rest
    else d :: mapInsert k p rest

/-- Model of `BufferedSegment::insert_buffer(key, pos)` (buffered_segment.h lines
78–86): full-buffer check (`buffer_size >= max_buffer_size`), `std::map`
insert, and an unconditional `buffer_size += 1`. -/
def insertBuffer (s : BufSeg) (k p : ℤ) : Bool × BufSeg :=
  if s.max_buffer_size ≤ s.buffer_size then (false, s)
  else (true, { s with buffer := mapInsert k p s.buffer,
                       buffer_size := s.buffer_size + 1 })

/-- The two-way merge performed by `BufferedSegmentIterator`: `operator*`
yields the buffer item exactly when `key_it->key() > buffer_it->first` and
`advance_iterator` then advances that side; ties yield the `keys` side first.
Tombstones are NOT skipped by `advance_iterator`. -/
def mergeYield : List DataItem → List DataItem → List DataItem
  | [], bs => bs
  | ks, [] => ks
  | k :: ks, b :: bs =>
    if k.key > b.key then b :: mergeYield (k :: ks) bs
    else k :: mergeYield ks (b :: bs)
termination_by ks bs => ks.length + bs.length

/-- The sub-iterator initialization in `BufferedSegment::begin()`: position at
the first non-deleted item; when every item is deleted the scan leaves the
iterator at position 0. -/
def beginSkip (l : List DataItem) : List DataItem :=
  if l.all (fun d => d.is_deleted) then l else l.dropWhile (fun d => d.is_deleted)

/-- The items yielded by iterating a `BufferedSegment` from `begin()` to
`end()`; empty when `keys` is empty (`begin()` then returns `end()`). -/
def segYield (s : BufSeg) : List DataItem :=
  if s.keys = [] then [] else mergeYield (beginSkip s.keys) (beginSkip s.buffer)

/-- The loop of `BufferedSegment::merge_buffer`: skips tombstones, splices
`(new_key, new_pos)` before the first larger non-deleted key and, faithfully to
the code, DROPS the new pair when no strictly larger key follows. -/
def mergeBufferAux (nk np : ℤ) : Bool → List DataItem → List (ℤ × ℤ)
  | _, [] => []
  | added, d :: rest =>
    if d.is_deleted then mergeBufferAux nk np added rest
    else if !added && decide (nk < d.key) then
      (nk, np) :: (d.key, d.pos) :: mergeBufferAux nk np true rest
    else (d.key, d.pos) :: mergeBufferAux nk np added rest

/-- Model of `BufferedSegment::merge_buffer(new_key, new_pos)`. -/
def mergeBuffer (s : BufSeg) (nk np : ℤ) : List (ℤ × ℤ) :=
  mergeBufferAux nk np false (segYield s)

/-- Model of `BufferedFitingTree`: key count, first key, and directory of buffered
segments kept ascending by start key (the reverse view of the descending
`stx::btree`). -/
structure BufTree where
  n : ℕ
  start_key : ℤ
  dir : List BufSeg
deriving DecidableEq

/-- Modelled from the spec (§4.3): predecessor lookup in the buffered segment
directory, as for `predecessor`. -/
def predecessorB (dir : List BufSeg) (k : ℤ) : Option BufSeg :=
  (dir.filter (fun s => decide (s.start_key ≤ k))).getLast?

/-- The number of `++it` advances performed by `for (; x > 0; --x) ++it;` on a
`long double` bound `x`: `⌈x⌉`, clamped below at 0. -/
def ratCeilNat (q : ℚ) : ℕ := (Int.ceil q).toNat

/-- Model of `BufferedSegment::size()`: `keys.size() + buffer_size`. -/
def bufSegSize (s : BufSeg) : ℕ := s.keys.length + s.buffer_size

/-- Model of `BufferedFitingTree::find(key)` (buffered_fiting_tree.h lines 77–107):
predecessor lookup, position prediction `(key − start_key)·slope`, the
`SUB_ERR`/`ADD_ERR` window advanced element-wise over the merged iterator, and
`std::lower_bound` over that window; `none` models `end()` (also returned when
the found item is tombstoned). -/
def bfind (E : ℕ) (t : BufTree) (key : ℤ) : Option DataItem :=
  if t.n = 0 then none
  else
    match predecessorB t.dir key with
    | none => none
    | some s =>
      let pos : ℚ := ((key - s.start_key : ℤ) : ℚ) * s.slope
      let lb : ℚ := if pos ≤ (E : ℚ) then 0 else pos - (E : ℚ)
      let ub : ℚ := if pos + (E : ℚ) ≥ (bufSegSize s : ℚ) then (bufSegSize s : ℚ)
                    else pos + (E : ℚ)
      let L := segYield s
      let a := min (ratCeilNat lb) L.length
      let b := min (ratCeilNat ub) L.length
      let w := (L.drop a).take (b - a)
      let q := a + (w.takeWhile (fun d => decide (d.key < key))).length
      match L.get? q with
      | none => none
      | some d =>
        if d.key = key then (if d.is_deleted then none else some d) else none

/-- Mark the first non-deleted item with key `k` as deleted. -/
def markFirst (k : ℤ) : List DataItem → List DataItem
  | [] => []
  | d :: rest =>
    if d.key = k && !d.is_deleted then { d with is_deleted := true } :: rest
    else d :: markFirst k rest

/-- Flip the deleted flag of the `DataItem` that `find` located: the
`keys`-side item when a live one with that key exists (iterator ties prefer
the `keys` side), otherwise the buffer item. -/
def markInSeg (k : ℤ) (s : BufSeg) : BufSeg :=
  if s.keys.any (fun d => d.key = k && !d.is_deleted) then
    { s with keys := markFirst k s.keys }
  else { s with buffer := markFirst k s.buffer }

/-- Apply `f` to the predecessor segment of `k` (the last entry, in ascending
order, whose start key is `≤ k`). -/
def updatePred (f : BufSeg → BufSeg) (k : ℤ) : List BufSeg → List BufSeg
  | [] => []
  | s :: rest =>
    if (rest.filter (fun u => decide (u.start_key ≤ k))).isEmpty then
      (if s.start_key ≤ k then f s :: rest else s :: rest)
    else s :: updatePred f k rest

/-- Apply `f` to the segment `insert` targets: the predecessor of `k`, or the
smallest-key segment (`rbegin()`) when `k` precedes every start key. -/
def updateTarget (f : BufSeg → BufSeg) (k : ℤ) (dir : List BufSeg) : List BufSeg :=
  if (dir.filter (fun u => decide (u.start_key ≤ k))).isEmpty then
    match dir with
    | [] => []
    | s :: rest => f s :: rest
  else updatePred f k dir

/-- Model of `BufferedFitingTree::erase(key)`.  Modelled from the documented intent: the
code as written does not compile (it calls the non-const `set_deleted()`
through the iterator's `const DataItem *`); the intended behavior is to flip
the found item's deleted flag in place. -/
def berase (E : ℕ) (t : BufTree) (key : ℤ) : BufTree :=
  match bfind E t key with
  | none => t
  | some _ => { t with dir := updatePred (markInSeg key) key t.dir }

/-- The items yielded by iterating a `BufferedFitingTree` from `begin()` to
`end()`: segments in ascending start-key order (reverse iteration of the
descending directory), each contributing its merged `segYield` stream. -/
def treeYield (t : BufTree) : List DataItem :=
  if t.n = 0 then [] else (t.dir.map segYield).join

/-- Modelled from the spec: `get_all_segments_buffered` is called by the
buffered tree's constructor and overflow path but is not among the sources.
Per §4.6 it runs the same shrinking-cone segmentation with error `ε_s` and
materializes each emitted segment with the (deduplicated) input pairs its key
range covers, an empty buffer, and capacity `B`. -/
def getAllSegmentsBuffered (e : ℤ) (B : ℕ) (pts : List (ℤ × ℤ)) : List BufSeg :=
  (getAllSegments e pts).map (fun S =>
    { start_key := S.start_key, start_pos := S.start_pos, end_key := S.end_key,
      slope := S.slope,
      keys := ((dedupAll pts).filter
        (fun p => decide (S.start_key ≤ p.1) && decide (p.1 ≤ S.end_key))).map
          (fun p => (⟨p.1, p.2, false⟩ : DataItem)),
      buffer := [], buffer_size := 0, max_buffer_size := B })

/-- The `BufferedFitingTree(first, last)` constructor with segmentation error
`seg_error = Error − BufferSize`. -/
def buildBufTree (E B : ℕ) (data : List ℤ) : BufTree :=
  { n := data.length, start_key := data.headD 0,
    dir := getAllSegmentsBuffered ((E : ℤ) - (B : ℤ)) B (pairsOf data) }

/-- Model of `stx::btree::insert` of one buffered segment keyed by its start key
(duplicate keys are not overwritten), on the ascending view of the directory. -/
def dirInsert (s : BufSeg) : List BufSeg → List BufSeg
  | [] => [s]
  | t :: rest =>
    if s.start_key < t.start_key then s :: t :: rest
    else if s.start_key = t.start_key then t :: rest
    else t :: dirInsert s rest

/-- Model of `BufferedFitingTree::insert(key, pos)` (buffered_fiting_tree.h lines
156–190), faithful to the code: on buffer overflow the merged list is
re-segmented, but the first replacement segment is assigned to a LOCAL COPY of
the directory entry (`auto current_segment = it.data(); current_segment =
segment_it->second;`), so the directory keeps the old overflowing segment;
only the replacements after the first are inserted, and `n` is never
updated. -/
def binsert (E B : ℕ) (t : BufTree) (key pos : ℤ) : BufTree :=
  if (bfind E t key).isSome then t
  else
    match (match predecessorB t.dir key with
           | some s => some s
           | none => t.dir.head?) with
    | none => t
    | some s =>
      if (insertBuffer s key pos).1 then
        { t with dir := updateTarget (fun u => (insertBuffer u key pos).2) key t.dir }
      else
        let newSegs := getAllSegmentsBuffered ((E : ℤ) - (B : ℤ)) B (mergeBuffer s key pos)
        { t with dir := (newSegs.drop 1).foldl (fun d u => dirInsert u d) t.dir }

section CrossMult

/-! ## C9: cross-multiplied slope comparisons vs exact rational comparison -/

theorem sLt_iff_val_lt (a b : Slope) (ha : 0 < a.dx) (hb : 0 < b.dx) :
    sLt a b = true ↔ a.val < b.val := by
  have haq : (0 : ℚ) < (a.dx : ℚ) := by exact_mod_cast ha
  have hbq : (0 : ℚ) < (b.dx : ℚ) := by exact_mod_cast hb
  rw [sLt, decide_eq_true_iff, Slope.val, Slope.val, div_lt_div_iff haq hbq]
  constructor
  · intro h
    have : ((a.dy * b.dx : ℤ) : ℚ) < ((a.dx * b.dy : ℤ) : ℚ) := by exact_mod_cast h
    push_cast at this
    linarith
  · intro h
    have : ((a.dy * b.dx : ℤ) : ℚ) < ((a.dx * b.dy : ℤ) : ℚ) := by push_cast; linarith
    exact_mod_cast this

theorem sGt_iff_val_gt (a b : Slope) (ha : 0 < a.dx) (hb : 0 < b.dx) :
    sGt a b = true ↔ b.val < a.val := by
  have haq : (0 : ℚ) < (a.dx : ℚ) := by exact_mod_cast ha
  have hbq : (0 : ℚ) < (b.dx : ℚ) := by exact_mod_cast hb
  rw [sGt, decide_eq_true_iff, Slope.val, Slope.val, div_lt_div_iff hbq haq]
  constructor
  · intro h
    have : ((a.dx * b.dy : ℤ) : ℚ) < ((a.dy * b.dx : ℤ) : ℚ) := by exact_mod_cast h
    push_cast at this
    linarith
  · intro h
    have : ((a.dx * b.dy : ℤ) : ℚ) < ((a.dy * b.dx : ℤ) : ℚ) := by push_cast; linarith
    exact_mod_cast this

theorem sEq_iff_val_eq (a b : Slope) (ha : 0 < a.dx) (hb : 0 < b.dx) :
    sEq a b = true ↔ a.val = b.val := by
  have haq : (a.dx : ℚ) ≠ 0 := by positivity
  have hbq : (b.dx : ℚ) ≠ 0 := by positivity
  rw [sEq, decide_eq_true_iff, Slope.val, Slope.val, div_eq_div_iff haq hbq]
  constructor
  · intro h
    have : ((a.dy * b.dx : ℤ) : ℚ) = ((a.dx * b.dy : ℤ) : ℚ) := by exact_mod_cast h
    push_cast at this
    linarith
  · intro h
    have : ((a.dy * b.dx : ℤ) : ℚ) = ((a.dx * b.dy : ℤ) : ℚ) := by push_cast; linarith
    exact_mod_cast this

end CrossMult

/-- C9: for slopes with positive `dx` (as arise from point differences of a
strictly key-increasing stream), the cross-multiplied comparisons `<`, `>` and
`==` of `PiecewiseLinearModel::Slope` agree with exact comparison of the
rational values `dy/dx`. -/
theorem c9_cross_mult (a b : Slope) (ha : 0 < a.dx) (hb : 0 < b.dx) :
    (sLt a b = true ↔ a.val < b.val) ∧
    (sGt a b = true ↔ b.val < a.val) ∧
    (sEq a b = true ↔ a.val = b.val) :=
  ⟨sLt_iff_val_lt a b ha hb, sGt_iff_val_gt a b ha hb, sEq_iff_val_eq a b ha hb⟩

/-- Witness for `c9_cross_mult` at the concrete slopes `1/2` and `2/3`. -/
theorem c9_cross_mult_witness :
    (sLt ⟨2, 1⟩ ⟨3, 2⟩ = true ↔ Slope.val ⟨2, 1⟩ < Slope.val ⟨3, 2⟩) ∧
    (sGt ⟨2, 1⟩ ⟨3, 2⟩ = true ↔ Slope.val ⟨3, 2⟩ < Slope.val ⟨2, 1⟩) ∧
    (sEq ⟨2, 1⟩ ⟨3, 2⟩ = true ↔ Slope.val ⟨2, 1⟩ = Slope.val ⟨3, 2⟩) :=
  c9_cross_mult ⟨2, 1⟩ ⟨3, 2⟩ (by decide) (by decide)

/-! ## Shape lemmas for `add_point` -/

theorem addPoint_zero (m : PLM) (x y : ℤ) (h0 : m.points_in_segment = 0) :
    m.addPoint x y =
      (true, { m with first_point := ⟨x, y⟩, last_point := ⟨x, y⟩,
                      lower_slope := ⟨1, 0⟩, upper_slope := ⟨0, 1⟩,
                      points_in_segment := 1 }) := by
  simp [PLM.addPoint, h0]

theorem addPoint_one (m : PLM) (x y : ℤ) (h1 : m.points_in_segment = 1) :
    m.addPoint x y =
      (true, { m with lower_slope := psub ⟨x, y - m.error⟩ m.first_point,
                      upper_slope := psub ⟨x, y + m.error⟩ m.first_point,
                      points_in_segment := 2, last_point := ⟨x, y⟩ }) := by
  simp [PLM.addPoint, h1]

theorem addPoint_ge2_rej (m : PLM) (x y : ℤ) (h2 : 2 ≤ m.points_in_segment)
    (hrej : (sLt (psub ⟨x, y⟩ m.first_point) m.lower_slope
             || sGt (psub ⟨x, y⟩ m.first_point) m.upper_slope) = true) :
    m.addPoint x y = (false, { m with points_in_segment := 0 }) := by
  have h0 : ¬ m.points_in_segment = 0 := by omega
  have h1 : ¬ m.points_in_segment = 1 := by omega
  simp [PLM.addPoint, h0, h1, hrej]

theorem addPoint_ge2_acc (m : PLM) (x y : ℤ) (h2 : 2 ≤ m.points_in_segment)
    (hacc : (sLt (psub ⟨x, y⟩ m.first_point) m.lower_slope
             || sGt (psub ⟨x, y⟩ m.first_point) m.upper_slope) = false) :
    m.addPoint x y =
      (true,
       { m with
         upper_slope := if sLt (psub ⟨x, y + m.error⟩ m.first_point) m.upper_slope
                        then psub ⟨x, y + m.error⟩ m.first_point else m.upper_slope,
         lower_slope := if sGt (psub ⟨x, y - m.error⟩ m.first_point) m.lower_slope
                        then psub ⟨x, y - m.error⟩ m.first_point else m.lower_slope,
         last_point := ⟨x, y⟩,
         points_in_segment := m.points_in_segment + 1 }) := by
  have h0 : ¬ m.points_in_segment = 0 := by omega
  have h1 : ¬ m.points_in_segment = 1 := by omega
  by_cases hu : sLt (psub ⟨x, y + m.error⟩ m.first_point) m.upper_slope = true <;>
    by_cases hl : sGt (psub ⟨x, y - m.error⟩ m.first_point) m.lower_slope = true <;>
      simp [PLM.addPoint, h0, h1, hacc, hu, hl]

/-! ## Invariant preservation -/

theorem inv_anchor (e : ℤ) (m : PLM) (p : ℤ × ℤ) (herr : m.error = e)
    (h0 : m.points_in_segment = 0) :
    (m.addPoint p.1 p.2).1 = true ∧ Inv e (m.addPoint p.1 p.2).2 p [] := by
  rw [addPoint_zero m p.1 p.2 h0]
  refine ⟨rfl, ?_⟩
  exact { herr := herr, hcnt := rfl, hfp := rfl, hlp := rfl,
          hslopes := fun h => absurd rfl h }

theorem div_le_div_same_pos {a b c : ℚ} (h : a ≤ b) (hc : 0 < c) :
    a / c ≤ b / c := by
  rw [div_le_div_iff hc hc]
  nlinarith

theorem inv_step1 (e : ℤ) (he : 0 ≤ e) (m : PLM) (a p : ℤ × ℤ)
    (hinv : Inv e m a []) (hax : a.1 < p.1) :
    (m.addPoint p.1 p.2).1 = true ∧ Inv e (m.addPoint p.1 p.2).2 a [p] := by
  obtain ⟨herr, hcnt, hfp, hlp, -⟩ := hinv
  simp only [List.length_nil, Nat.zero_add] at hcnt
  rw [addPoint_one m p.1 p.2 hcnt]
  dsimp only
  have hdx : (0 : ℤ) < p.1 - a.1 := by omega
  have hdxq : (0 : ℚ) < ((p.1 - a.1 : ℤ) : ℚ) := by exact_mod_cast hdx
  have heq : (0 : ℚ) ≤ (e : ℚ) := by exact_mod_cast he
  refine ⟨rfl, ?_⟩
  refine { herr := herr, hcnt := rfl, hfp := hfp, hlp := rfl, hslopes := ?_ }
  rintro -
  rw [herr, hfp]
  refine ⟨by simpa [psub] using hdx, by simpa [psub] using hdx, ?_, ?_⟩
  · show Slope.val (psub ⟨p.1, p.2 - e⟩ ⟨a.1, a.2⟩) ≤
        Slope.val (psub ⟨p.1, p.2 + e⟩ ⟨a.1, a.2⟩)
    simp only [psub, Slope.val]
    apply div_le_div_same_pos ?_ hdxq
    push_cast
    linarith
  · intro q hq
    rcases List.mem_singleton.mp hq with rfl
    constructor
    · show lowC e a q ≤ Slope.val (psub ⟨q.1, q.2 - e⟩ ⟨a.1, a.2⟩)
      simp [psub, Slope.val, lowC]
    · show Slope.val (psub ⟨q.1, q.2 + e⟩ ⟨a.1, a.2⟩) ≤ upC e a q
      simp [psub, Slope.val, upC]

theorem inv_step (e : ℤ) (he : 0 ≤ e) (m : PLM) (a : ℤ × ℤ)
    (ps : List (ℤ × ℤ)) (p : ℤ × ℤ)
    (hinv : Inv e m a ps) (hne : ps ≠ [])
    (haq : a.1 < p.1)
    (hacc : (m.addPoint p.1 p.2).1 = true) :
    Inv e (m.addPoint p.1 p.2).2 a (ps ++ [p]) := by
  obtain ⟨herr, hcnt, hfp, hlp, hsl⟩ := hinv
  obtain ⟨hldx, hudx, hlu, hcons⟩ := hsl hne
  have h2 : 2 ≤ m.points_in_segment := by
    rw [hcnt]
    have := List.length_pos.mpr hne
    omega
  have hdx : (0 : ℤ) < p.1 - a.1 := by omega
  have hdxq : (0 : ℚ) < ((p.1 - a.1 : ℤ) : ℚ) := by exact_mod_cast hdx
  have heq : (0 : ℚ) ≤ (e : ℚ) := by exact_mod_cast he
  have hsdx : 0 < (psub ⟨p.1, p.2⟩ m.first_point).dx := by
    rw [hfp]; simpa [psub] using hdx
  cases htest : (sLt (psub ⟨p.1, p.2⟩ m.first_point) m.lower_slope
      || sGt (psub ⟨p.1, p.2⟩ m.first_point) m.upper_slope) with
  | true =>
    rw [addPoint_ge2_rej m p.1 p.2 h2 htest] at hacc
    simp at hacc
  | false =>
    simp only [Bool.or_eq_false_iff] at htest
    obtain ⟨hA, hB⟩ := htest
    -- acceptance in exact rational terms: lower ≤ s ≤ upper
    have hls : m.lower_slope.val ≤ (psub ⟨p.1, p.2⟩ m.first_point).val := by
      by_contra hc
      have := (sLt_iff_val_lt _ _ hsdx hldx).mpr (lt_of_not_le hc)
      rw [hA] at this
      exact Bool.noConfusion this
    have hsu : (psub ⟨p.1, p.2⟩ m.first_point).val ≤ m.upper_slope.val := by
      by_contra hc
      have := (sGt_iff_val_gt _ _ hsdx hudx).mpr (lt_of_not_le hc)
      rw [hB] at this
      exact Bool.noConfusion this
    have hsval : (psub ⟨p.1, p.2⟩ m.first_point).val
        = ((p.2 - a.2 : ℤ) : ℚ) / ((p.1 - a.1 : ℤ) : ℚ) := by
      rw [hfp]; simp [psub, Slope.val]
    have hlow_s : lowC e a p ≤ (psub ⟨p.1, p.2⟩ m.first_point).val := by
      rw [hsval, lowC]
      apply div_le_div_same_pos ?_ hdxq
      push_cast; linarith
    have hs_up : (psub ⟨p.1, p.2⟩ m.first_point).val ≤ upC e a p := by
      rw [hsval, upC]
      apply div_le_div_same_pos ?_ hdxq
      push_cast; linarith
    rw [addPoint_ge2_acc m p.1 p.2 h2 (by simp [hA, hB])]
    dsimp only
    have hLWdx : 0 < (psub ⟨p.1, p.2 - m.error⟩ m.first_point).dx := by
      rw [hfp]; simpa [psub] using hdx
    have hUPdx : 0 < (psub ⟨p.1, p.2 + m.error⟩ m.first_point).dx := by
      rw [hfp]; simpa [psub] using hdx
    have hLWval : (psub ⟨p.1, p.2 - m.error⟩ m.first_point).val = lowC e a p := by
      rw [herr, hfp]; simp [psub, Slope.val, lowC]
    have hUPval : (psub ⟨p.1, p.2 + m.error⟩ m.first_point).val = upC e a p := by
      rw [herr, hfp]; simp [psub, Slope.val, upC]
    refine { herr := herr, hcnt := by simp [hcnt], hfp := hfp,
             hlp := by simp [List.getLastD_concat], hslopes := ?_ }
    rintro -
    by_cases hu : sLt (psub ⟨p.1, p.2 + m.error⟩ m.first_point) m.upper_slope = true <;>
      by_cases hl : sGt (psub ⟨p.1, p.2 - m.error⟩ m.first_point) m.lower_slope = true
    · -- both tighten
      have hu' := (sLt_iff_val_lt _ _ hUPdx hudx).mp hu
      have hl' := (sGt_iff_val_gt _ _ hLWdx hldx).mp hl
      rw [if_pos hu, if_pos hl]
      refine ⟨hLWdx, hUPdx, ?_, ?_⟩
      · rw [hLWval, hUPval]
        calc lowC e a p ≤ (psub ⟨p.1, p.2⟩ m.first_point).val := hlow_s
          _ ≤ upC e a p := hs_up
      · intro q hq
        rcases List.mem_append.mp hq with hq | hq
        · obtain ⟨hq1, hq2⟩ := hcons q hq
          exact ⟨hq1.trans (le_of_lt hl'), (le_of_lt hu').trans hq2⟩
        · rcases List.mem_singleton.mp hq with rfl
          exact ⟨le_of_eq hLWval.symm, le_of_eq hUPval⟩
    · -- only upper tightens
      have hu' := (sLt_iff_val_lt _ _ hUPdx hudx).mp hu
      have hl' : (psub ⟨p.1, p.2 - m.error⟩ m.first_point).val ≤ m.lower_slope.val := by
        by_contra hc
        have := (sGt_iff_val_gt _ _ hLWdx hldx).mpr (lt_of_not_le hc)
        exact hl this
      rw [if_pos hu, if_neg hl]
      refine ⟨hldx, hUPdx, ?_, ?_⟩
      · rw [hUPval]
        calc m.lower_slope.val ≤ (psub ⟨p.1, p.2⟩ m.first_point).val := hls
          _ ≤ upC e a p := hs_up
      · intro q hq
        rcases List.mem_append.mp hq with hq | hq
        · obtain ⟨hq1, hq2⟩ := hcons q hq
          exact ⟨hq1, (le_of_lt hu').trans hq2⟩
        · rcases List.mem_singleton.mp hq with rfl
          exact ⟨hLWval ▸ hl', le_of_eq hUPval⟩
    · -- only lower tightens
      have hl' := (sGt_iff_val_gt _ _ hLWdx hldx).mp hl
      have hu' : m.upper_slope.val ≤ (psub ⟨p.1, p.2 + m.error⟩ m.first_point).val := by
        by_contra hc
        have := (sLt_iff_val_lt _ _ hUPdx hudx).mpr (lt_of_not_le hc)
        exact hu this
      rw [if_neg hu, if_pos hl]
      refine ⟨hLWdx, hudx, ?_, ?_⟩
      · rw [hLWval]
        calc lowC e a p ≤ (psub ⟨p.1, p.2⟩ m.first_point).val := hlow_s
          _ ≤ m.upper_slope.val := hsu
      · intro q hq
        rcases List.mem_append.mp hq with hq | hq
        · obtain ⟨hq1, hq2⟩ := hcons q hq
          exact ⟨hq1.trans (le_of_lt hl'), hq2⟩
        · rcases List.mem_singleton.mp hq with rfl
          exact ⟨le_of_eq hLWval.symm, hUPval ▸ hu'⟩
    · -- neither tightens
      have hl' : (psub ⟨p.1, p.2 - m.error⟩ m.first_point).val ≤ m.lower_slope.val := by
        by_contra hc
        have := (sGt_iff_val_gt _ _ hLWdx hldx).mpr (lt_of_not_le hc)
        exact hl this
      have hu' : m.upper_slope.val ≤ (psub ⟨p.1, p.2 + m.error⟩ m.first_point).val := by
        by_contra hc
        have := (sLt_iff_val_lt _ _ hUPdx hudx).mpr (lt_of_not_le hc)
        exact hu this
      rw [if_neg hu, if_neg hl]
      refine ⟨hldx, hudx, hlu, ?_⟩
      intro q hq
      rcases List.mem_append.mp hq with hq | hq
      · exact hcons q hq
      · rcases List.mem_singleton.mp hq with rfl
        exact ⟨hLWval ▸ hl', hUPval ▸ hu'⟩

/-! ## Emission lemmas -/

theorem getSegment_one (m : PLM) (h : m.points_in_segment = 1) :
    m.getSegment = ⟨m.first_point.x, m.first_point.y, m.last_point.x, 1⟩ := by
  simp [PLM.getSegment, h]

theorem getSegment_ne_one (m : PLM) (h : m.points_in_segment ≠ 1) :
    m.getSegment = ⟨m.first_point.x, m.first_point.y, m.last_point.x,
                    (m.upper_slope.val + m.lower_slope.val) / 2⟩ := by
  simp [PLM.getSegment, h]

theorem abs_pred_le (e : ℤ) (a p : ℤ × ℤ) (σ : ℚ)
    (hdx : a.1 < p.1)
    (h1 : lowC e a p ≤ σ) (h2 : σ ≤ upC e a p) :
    |(p.2 : ℚ) - ((a.2 : ℚ) + σ * ((p.1 : ℚ) - (a.1 : ℚ)))| ≤ (e : ℚ) := by
  have hdxq : (0 : ℚ) < ((p.1 - a.1 : ℤ) : ℚ) := by
    exact_mod_cast (by omega : (0 : ℤ) < p.1 - a.1)
  rw [lowC, div_le_iff hdxq] at h1
  rw [upC, le_div_iff hdxq] at h2
  rw [abs_le]
  push_cast at h1 h2 ⊢
  constructor <;> linarith

theorem segBound_single (e : ℤ) (he : 0 ≤ e) (S : Segment) (a : ℤ × ℤ)
    (hsk : S.start_key = a.1) (hsp : S.start_pos = a.2) :
    SegBound e S [a] := by
  intro p hp
  rcases List.mem_singleton.mp hp with rfl
  rw [predQ, hsk, hsp]
  simpa using (by exact_mod_cast he : (0 : ℚ) ≤ (e : ℚ))

theorem segBound_mid (e : ℤ) (he : 0 ≤ e) (S : Segment) (a : ℤ × ℤ)
    (ps : List (ℤ × ℤ)) (l u : Slope)
    (hsk : S.start_key = a.1) (hsp : S.start_pos = a.2)
    (hslope : S.slope = (u.val + l.val) / 2)
    (hlu : l.val ≤ u.val)
    (hc : ∀ p ∈ ps, lowC e a p ≤ l.val ∧ u.val ≤ upC e a p)
    (hax : ∀ p ∈ ps, a.1 < p.1) :
    SegBound e S (a :: ps) := by
  intro p hp
  rcases List.mem_cons.mp hp with rfl | hp
  · rw [predQ, hsk, hsp]
    simpa using (by exact_mod_cast he : (0 : ℚ) ≤ (e : ℚ))
  · obtain ⟨h1, h2⟩ := hc p hp
    have hmidl : l.val ≤ S.slope := by rw [hslope]; linarith
    have hmidu : S.slope ≤ u.val := by rw [hslope]; linarith
    rw [predQ, hsk, hsp]
    exact abs_pred_le e a p S.slope (hax p hp) (h1.trans hmidl) (hmidu.trans h2)

theorem pairwise_head_lt {a : ℤ × ℤ} {l : List (ℤ × ℤ)}
    (h : (a :: l).Pairwise keyLT) : ∀ p ∈ l, a.1 < p.1 :=
  fun p hp => (List.pairwise_cons.mp h).1 p hp

/-! ## The main coverage theorem for the dedup-free loop -/

theorem segLoopS_covers (e : ℤ) (he : 0 ≤ e) :
    ∀ (rest : List (ℤ × ℤ)) (m : PLM) (a : ℤ × ℤ) (ps : List (ℤ × ℤ)),
      Inv e m a ps →
      ((a :: ps) ++ rest).Pairwise keyLT →
      Covers e (segLoopS m rest) ((a :: ps) ++ rest) := by
  intro rest
  induction rest with
  | nil =>
    intro m a ps hinv hp
    rw [segLoopS]
    by_cases hps : ps = []
    · subst hps
      have h1 : m.points_in_segment = 1 := by simpa using hinv.hcnt
      rw [getSegment_one m h1]
      refine Covers.cons _ a [] [] [] ?_ ?_ ?_ Covers.nil
      · show m.first_point.x = a.1
        rw [hinv.hfp]
      · show m.last_point.x = (([] : List (ℤ × ℤ)).getLastD a).1
        rw [hinv.hlp]
      · exact segBound_single e he _ a (by rw [hinv.hfp]) (by rw [hinv.hfp])
    · have h1 : m.points_in_segment ≠ 1 := by
        have hc := hinv.hcnt
        have hl := List.length_pos.mpr hps
        omega
      rw [getSegment_ne_one m h1]
      obtain ⟨hldx, hudx, hlu, hcons⟩ := hinv.hslopes hps
      refine Covers.cons _ a ps [] [] ?_ ?_ ?_ Covers.nil
      · show m.first_point.x = a.1
        rw [hinv.hfp]
      · show m.last_point.x = (ps.getLastD a).1
        rw [hinv.hlp]
      · exact segBound_mid e he _ a ps m.lower_slope m.upper_slope
          (by rw [hinv.hfp]) (by rw [hinv.hfp]) rfl hlu hcons
          (pairwise_head_lt (by simpa using hp))
  | cons p rest' ih =>
    intro m a ps hinv hp
    have hap : a.1 < p.1 := (List.pairwise_cons.mp hp).1 p (by simp)
    rw [segLoopS]
    by_cases hps : ps = []
    · subst hps
      obtain ⟨hacc, hinv'⟩ := inv_step1 e he m a p hinv hap
      rw [if_pos hacc]
      have := ih (m.addPoint p.1 p.2).2 a [p] hinv' (by simpa using hp)
      simpa using this
    · cases hb : (m.addPoint p.1 p.2).1 with
      | true =>
        have hinv' := inv_step e he m a ps p hinv hps hap hb
        rw [if_pos rfl]
        have hp' : ((a :: (ps ++ [p])) ++ rest').Pairwise keyLT := by
          simpa using hp
        have := ih (m.addPoint p.1 p.2).2 a (ps ++ [p]) hinv' hp'
        simpa using this
      | false =>
        rw [if_neg (by simp)]
        have h2 : 2 ≤ m.points_in_segment := by
          have hc := hinv.hcnt
          have hl := List.length_pos.mpr hps
          omega
        -- the test must have been true
        have htest : (sLt (psub ⟨p.1, p.2⟩ m.first_point) m.lower_slope
            || sGt (psub ⟨p.1, p.2⟩ m.first_point) m.upper_slope) = true := by
          cases ht : (sLt (psub ⟨p.1, p.2⟩ m.first_point) m.lower_slope
              || sGt (psub ⟨p.1, p.2⟩ m.first_point) m.upper_slope) with
          | true => rfl
          | false =>
            rw [addPoint_ge2_acc m p.1 p.2 h2 ht] at hb
            simp at hb
        rw [addPoint_ge2_rej m p.1 p.2 h2 htest]
        obtain ⟨hldx, hudx, hlu, hcons⟩ := hinv.hslopes hps
        obtain ⟨hacc2, hinv2⟩ :=
          inv_anchor e ({ m with points_in_segment := 0 }) p hinv.herr rfl
        have hrest := ih _ p [] hinv2
          (by
            refine List.Pairwise.sublist ?_ hp
            simpa using List.sublist_append_right (a :: ps) (p :: rest'))
        have hgs : ({ m with points_in_segment := 0 } : PLM).getSegment
            = ⟨m.first_point.x, m.first_point.y, m.last_point.x,
               (m.upper_slope.val + m.lower_slope.val) / 2⟩ := by
          exact getSegment_ne_one _ (by simp)
        rw [hgs]
        refine Covers.cons _ a ps (p :: rest') _ ?_ ?_ ?_ (by simpa using hrest)
        · show m.first_point.x = a.1
          rw [hinv.hfp]
        · show m.last_point.x = (ps.getLastD a).1
          rw [hinv.hlp]
        · exact segBound_mid e he _ a ps m.lower_slope m.upper_slope
            (by rw [hinv.hfp]) (by rw [hinv.hfp]) rfl hlu hcons
            (pairwise_head_lt
              (by
                refine List.Pairwise.sublist ?_ hp
                simpa using
                  (List.sublist_append_left (a :: ps) (p :: rest'))))

/-! ## The dedup elimination: `segLoop` equals `segLoopS` on the dedup stream -/

theorem segLoop_eq_segLoopS (rest : List (ℤ × ℤ)) :
    ∀ (m : PLM) (kv : ℤ × ℤ) (acc : List Segment),
      segLoop m kv rest acc = acc ++ segLoopS m (dedupFrom kv.1 rest) := by
  induction rest with
  | nil => intro m kv acc; simp [segLoop, dedupFrom, segLoopS]
  | cons p rest' ih =>
    intro m kv acc
    rw [segLoop, dedupFrom]
    by_cases hk : p.1 = kv.1
    · rw [if_pos hk, if_pos hk]
      exact ih m kv acc
    · rw [if_neg hk, if_neg hk, segLoopS]
      by_cases hb : (m.addPoint p.1 p.2).1 = true
      · rw [if_pos hb, if_pos hb]
        exact ih _ p acc
      · rw [if_neg hb, if_neg hb, ih _ p _]
        simp

theorem getAllSegments_covers (e : ℤ) (he : 0 ≤ e) (pts : List (ℤ × ℤ))
    (hp : (dedupAll pts).Pairwise keyLT) :
    Covers e (getAllSegments e pts) (dedupAll pts) := by
  cases pts with
  | nil => exact Covers.nil
  | cons p rest =>
    have hd : dedupAll (p :: rest) = p :: dedupFrom p.1 rest := rfl
    rw [hd] at hp
    obtain ⟨hacc, hinv⟩ := inv_anchor e (PLM.init e) p rfl rfl
    have h := segLoopS_covers e he (dedupFrom p.1 rest) _ p [] hinv (by simpa using hp)
    show Covers e (segLoop (((PLM.init e).addPoint p.1 p.2).2) p rest [])
      (dedupAll (p :: rest))
    rw [hd, segLoop_eq_segLoopS]
    simpa using h

/-! ## Deduplication lemmas -/

theorem mem_of_mem_dedupFrom (l : List (ℤ × ℤ)) :
    ∀ k p, p ∈ dedupFrom k l → p ∈ l := by
  induction l with
  | nil => intro k p h; simp [dedupFrom] at h
  | cons q rest ih =>
    intro k p hp
    rw [dedupFrom] at hp
    by_cases hq : q.1 = k
    · rw [if_pos hq] at hp
      exact List.mem_cons_of_mem q (ih k p hp)
    · rw [if_neg hq] at hp
      rcases List.mem_cons.mp hp with rfl | hp
      · exact List.mem_cons_self _ _
      · exact List.mem_cons_of_mem q (ih q.1 p hp)

theorem mem_of_mem_dedupAll (l : List (ℤ × ℤ)) (p : ℤ × ℤ)
    (hp : p ∈ dedupAll l) : p ∈ l := by
  cases l with
  | nil => simpa [dedupAll] using hp
  | cons q rest =>
    rw [dedupAll] at hp
    rcases List.mem_cons.mp hp with rfl | hp
    · exact List.mem_cons_self _ _
    · exact List.mem_cons_of_mem q (mem_of_mem_dedupFrom rest q.1 p hp)

theorem dedupFrom_pairwise (l : List (ℤ × ℤ)) :
    ∀ k, (∀ q ∈ l, k ≤ q.1) → l.Pairwise keyLE →
      (∀ q ∈ dedupFrom k l, k < q.1) ∧ (dedupFrom k l).Pairwise keyLT := by
  induction l with
  | nil => intro k _ _; simp [dedupFrom]
  | cons q rest ih =>
    intro k hk hp
    rw [dedupFrom]
    obtain ⟨hq1, hp'⟩ := List.pairwise_cons.mp hp
    by_cases hqk : q.1 = k
    · rw [if_pos hqk]
      refine ih k ?_ hp'
      intro r hr
      exact hqk ▸ hq1 r hr
    · rw [if_neg hqk]
      have hkq : k < q.1 :=
        lt_of_le_of_ne (hk q (List.mem_cons_self q rest)) (Ne.symm hqk)
      obtain ⟨ha, hb⟩ := ih q.1 hq1 hp'
      constructor
      · intro r hr
        rcases List.mem_cons.mp hr with rfl | hr
        · exact hkq
        · exact hkq.trans (ha r hr)
      · exact List.pairwise_cons.mpr ⟨fun r hr => ha r hr, hb⟩

theorem dedupAll_pairwise (l : List (ℤ × ℤ)) (hp : l.Pairwise keyLE) :
    (dedupAll l).Pairwise keyLT := by
  cases l with
  | nil => simp [dedupAll]
  | cons q rest =>
    rw [dedupAll]
    obtain ⟨hq1, hp'⟩ := List.pairwise_cons.mp hp
    obtain ⟨ha, hb⟩ := dedupFrom_pairwise rest q.1 hq1 hp'
    exact List.pairwise_cons.mpr ⟨fun r hr => ha r hr, hb⟩

theorem find_mem_dedupFrom (l : List (ℤ × ℤ)) :
    ∀ k x p, l.Pairwise keyLE → k < x →
      l.find? (fun q => decide (q.1 = x)) = some p → p ∈ dedupFrom k l := by
  induction l with
  | nil => intro k x p _ _ h; simp at h
  | cons q rest ih =>
    intro k x p hp hkx hf
    rw [dedupFrom]
    obtain ⟨hq1, hp'⟩ := List.pairwise_cons.mp hp
    by_cases hqx : q.1 = x
    · rw [List.find?_cons_of_pos _ (by simp [hqx])] at hf
      have hpq : p = q := by
        injection hf with h
        exact h.symm
      subst hpq
      rw [if_neg (by omega)]
      exact List.mem_cons_self _ _
    · rw [List.find?_cons_of_neg _ (by simp [hqx])] at hf
      by_cases hqk : q.1 = k
      · rw [if_pos hqk]
        exact ih k x p hp' hkx hf
      · rw [if_neg hqk]
        have hpm := List.mem_of_find?_eq_some hf
        have hpx : p.1 = x := by
          have := List.find?_some hf
          simpa using this
        have hqx' : q.1 < x :=
          lt_of_le_of_ne (hpx ▸ hq1 p hpm) hqx
        exact List.mem_cons_of_mem q (ih q.1 x p hp' hqx' hf)

theorem find_mem_dedupAll (l : List (ℤ × ℤ)) (x : ℤ) (p : ℤ × ℤ)
    (hp : l.Pairwise keyLE)
    (hf : l.find? (fun q => decide (q.1 = x)) = some p) : p ∈ dedupAll l := by
  cases l with
  | nil => simp at hf
  | cons q rest =>
    rw [dedupAll]
    obtain ⟨hq1, hp'⟩ := List.pairwise_cons.mp hp
    by_cases hqx : q.1 = x
    · rw [List.find?_cons_of_pos _ (by simp [hqx])] at hf
      have hpq : p = q := by
        injection hf with h
        exact h.symm
      subst hpq
      exact List.mem_cons_self _ _
    · rw [List.find?_cons_of_neg _ (by simp [hqx])] at hf
      have hpm := List.mem_of_find?_eq_some hf
      have hpx : p.1 = x := by
        have := List.find?_some hf
        simpa using this
      have hqx' : q.1 < x := lt_of_le_of_ne (hpx ▸ hq1 p hpm) hqx
      exact List.mem_cons_of_mem q (find_mem_dedupFrom rest q.1 x p hp' hqx' hf)

/-! ## Lemmas about the input stream `(data[i], i)` -/

theorem pairsFrom_mem (data : List ℤ) :
    ∀ i p, p ∈ pairsFrom i data → p.1 ∈ data ∧ i ≤ p.2 ∧ p.2 < i + data.length := by
  induction data with
  | nil => intro i p h; simp [pairsFrom] at h
  | cons d rest ih =>
    intro i p h
    rw [pairsFrom] at h
    rcases List.mem_cons.mp h with rfl | h
    · refine ⟨List.mem_cons_self _ _, le_refl _, ?_⟩
      simp only [List.length_cons]
      push_cast
      omega
    · obtain ⟨h1, h2, h3⟩ := ih (i + 1) p h
      refine ⟨List.mem_cons_of_mem d h1, by omega, ?_⟩
      simp only [List.length_cons] at h3 ⊢
      push_cast at h3 ⊢
      omega

theorem pairsFrom_pairwise (data : List ℤ) :
    ∀ i, data.Pairwise (· ≤ ·) → (pairsFrom i data).Pairwise keyLE := by
  induction data with
  | nil => intro i _; simp [pairsFrom]
  | cons d rest ih =>
    intro i hs
    obtain ⟨hd, hs'⟩ := List.pairwise_cons.mp hs
    rw [pairsFrom]
    refine List.pairwise_cons.mpr ⟨?_, ih (i + 1) hs'⟩
    intro p hp
    exact hd p.1 (pairsFrom_mem rest (i + 1) p hp).1

theorem pairsFrom_find (data : List ℤ) :
    ∀ i k, k ∈ data →
      (pairsFrom i data).find? (fun q => decide (q.1 = k))
        = some (k, i + (data.indexOf k : ℤ)) := by
  induction data with
  | nil => intro i k h; simp at h
  | cons d rest ih =>
    intro i k hk
    rw [pairsFrom]
    by_cases hdk : d = k
    · subst hdk
      rw [List.find?_cons_of_pos _ (by simp)]
      simp [List.indexOf_cons_self]
    · rw [List.find?_cons_of_neg _ (by simp [hdk])]
      have hk' : k ∈ rest := by
        rcases List.mem_cons.mp hk with rfl | h
        · exact absurd rfl hdk
        · exact h
      rw [ih (i + 1) k hk']
      have hidx : (d :: rest).indexOf k = rest.indexOf k + 1 := by
        rw [List.indexOf_cons_ne _ hdk]
      rw [hidx]
      congr 1
      congr 1
      push_cast
      ring

/-! ## Consumers of the `Covers` relation -/

theorem pairwise_le_getLastD (ps : List (ℤ × ℤ)) :
    ∀ a, (a :: ps).Pairwise keyLT → ∀ p ∈ a :: ps, p.1 ≤ (ps.getLastD a).1 := by
  induction ps with
  | nil =>
    intro a _ p hp
    rcases List.mem_singleton.mp hp with rfl
    simp
  | cons b ps' ih =>
    intro a hp p hpm
    rw [List.getLastD_cons]
    have hp' : (b :: ps').Pairwise keyLT := (List.pairwise_cons.mp hp).2
    rcases List.mem_cons.mp hpm with rfl | hpm
    · have hab : p.1 < b.1 := (List.pairwise_cons.mp hp).1 b (List.mem_cons_self _ _)
      have hble := ih b hp' b (List.mem_cons_self _ _)
      omega
    · exact ih b hp' p hpm

theorem covers_key_bounds (e : ℤ) :
    ∀ {segs pts}, Covers e segs pts → pts.Pairwise keyLT →
      ∀ S ∈ segs, (∃ p ∈ pts, S.start_key = p.1) ∧ (∃ p ∈ pts, S.end_key = p.1) ∧
        S.start_key ≤ S.end_key := by
  intro segs pts hc
  induction hc with
  | nil => intro _ S hS; simp at hS
  | cons S a ps rest segs hstart hend hbound hrest ih =>
    intro hp S' hS'
    rcases List.mem_cons.mp hS' with rfl | hS'
    · have hblock : (a :: ps).Pairwise keyLT := hp.sublist (List.sublist_append_left _ _)
      refine ⟨⟨a, List.mem_append_left _ (List.mem_cons_self _ _), hstart⟩,
              ⟨ps.getLastD a, List.mem_append_left _ (List.getLastD_mem_cons ps a), hend⟩, ?_⟩
      rw [hstart, hend]
      exact pairwise_le_getLastD ps a hblock a (List.mem_cons_self _ _)
    · have hp' : rest.Pairwise keyLT := hp.sublist (List.sublist_append_right _ _)
      obtain ⟨⟨p, hpm, h1⟩, ⟨q, hqm, h2⟩, h3⟩ := ih hp' S' hS'
      exact ⟨⟨p, List.mem_append_right _ hpm, h1⟩, ⟨q, List.mem_append_right _ hqm, h2⟩, h3⟩

theorem covers_find (e : ℤ) :
    ∀ {segs pts}, Covers e segs pts → pts.Pairwise keyLT →
      ∀ p ∈ pts, ∃ l₁ S l₂, segs = l₁ ++ S :: l₂ ∧
        S.start_key ≤ p.1 ∧ p.1 ≤ S.end_key ∧
        |(p.2 : ℚ) - predQ S p.1| ≤ (e : ℚ) ∧
        (∀ T ∈ l₁, T.end_key < p.1) ∧
        (∀ T ∈ l₂, p.1 < T.start_key) := by
  intro segs pts hc
  induction hc with
  | nil => intro _ p hp; simp at hp
  | cons S a ps rest segs hstart hend hbound hrest ih =>
    intro hp p hpm
    have hblock : (a :: ps).Pairwise keyLT := hp.sublist (List.sublist_append_left _ _)
    have hrestp : rest.Pairwise keyLT := hp.sublist (List.sublist_append_right _ _)
    have hcross : ∀ q ∈ a :: ps, ∀ r ∈ rest, q.1 < r.1 := by
      intro q hq r hr
      exact (List.pairwise_append.mp hp).2.2 q hq r hr
    rcases List.mem_append.mp hpm with hpm | hpm
    · refine ⟨[], S, segs, rfl, ?_, ?_, hbound p hpm, by simp, ?_⟩
      · rw [hstart]
        rcases List.mem_cons.mp hpm with rfl | h
        · exact le_refl _
        · exact le_of_lt ((List.pairwise_cons.mp hblock).1 p h)
      · rw [hend]
        exact pairwise_le_getLastD ps a hblock p hpm
      · intro T hT
        obtain ⟨⟨q, hq, hTs⟩, -, -⟩ := covers_key_bounds e hrest hrestp T hT
        rw [hTs]
        exact hcross p hpm q hq
    · obtain ⟨l₁, S', l₂, heq, h1, h2, h3, h4, h5⟩ := ih hrestp p hpm
      refine ⟨S :: l₁, S', l₂, by simp [heq], h1, h2, h3, ?_, h5⟩
      intro T hT
      rcases List.mem_cons.mp hT with rfl | hT
      · rw [hend]
        exact hcross (ps.getLastD a) (List.getLastD_mem_cons ps a) p hpm
      · exact h4 T hT

theorem covers_unique (e : ℤ) {segs pts : _} (hc : Covers e segs pts)
    (hp : pts.Pairwise keyLT) (p : ℤ × ℤ) (hpm : p ∈ pts) :
    ∃ S, (S ∈ segs ∧ S.start_key ≤ p.1 ∧ p.1 ≤ S.end_key ∧
          |(p.2 : ℚ) - predQ S p.1| ≤ (e : ℚ)) ∧
      ∀ T, T ∈ segs → T.start_key ≤ p.1 → p.1 ≤ T.end_key → T = S := by
  obtain ⟨l₁, S, l₂, heq, h1, h2, h3, h4, h5⟩ := covers_find e hc hp p hpm
  refine ⟨S, ⟨by rw [heq]; exact List.mem_append_right _ (List.mem_cons_self _ _),
              h1, h2, h3⟩, ?_⟩
  intro T hT hT1 hT2
  rw [heq] at hT
  rcases List.mem_append.mp hT with hT | hT
  · exact absurd hT2 (not_le.mpr (h4 T hT))
  · rcases List.mem_cons.mp hT with rfl | hT
    · rfl
    · exact absurd hT1 (not_le.mpr (h5 T hT))

theorem covers_sorted (e : ℤ) :
    ∀ {segs pts}, Covers e segs pts → pts.Pairwise keyLT →
      segs.Pairwise (fun S T => S.end_key < T.start_key) := by
  intro segs pts hc
  induction hc with
  | nil => intro _; exact List.Pairwise.nil
  | cons S a ps rest segs hstart hend hbound hrest ih =>
    intro hp
    have hrestp : rest.Pairwise keyLT := hp.sublist (List.sublist_append_right _ _)
    refine List.pairwise_cons.mpr ⟨?_, ih hrestp⟩
    intro T hT
    obtain ⟨⟨q, hq, hTs⟩, -, -⟩ := covers_key_bounds e hrest hrestp T hT
    rw [hend, hTs]
    exact (List.pairwise_append.mp hp).2.2 _ (List.getLastD_mem_cons ps a) q hq

/-! ## The directory predecessor lookup -/

theorem predecessor_eq_some (l₁ : List Segment) (S : Segment) (l₂ : List Segment)
    (k : ℤ) (hS : S.start_key ≤ k) (h₂ : ∀ T ∈ l₂, k < T.start_key) :
    predecessor (l₁ ++ S :: l₂) k = some S := by
  rw [predecessor, List.filter_append]
  have hl2 : l₂.filter (fun T => decide (T.start_key ≤ k)) = [] := by
    rw [List.filter_eq_nil]
    intro T hT
    simpa using not_le.mpr (h₂ T hT)
  have h2 : (S :: l₂).filter (fun T => decide (T.start_key ≤ k)) = [S] := by
    rw [List.filter_cons_of_pos (by simpa using hS), hl2]
  rw [h2]
  rw [List.getLast?_append]
  rfl

theorem predecessor_eq_none (segs : List Segment) (k : ℤ)
    (h : ∀ T ∈ segs, k < T.start_key) : predecessor segs k = none := by
  rw [predecessor]
  rw [List.filter_eq_nil.mpr (fun T hT => by simpa using not_le.mpr (h T hT))]
  rfl

/-- Lemma: `codePos` is the same rational as `predQ`. -/
theorem codePos_eq_predQ (S : Segment) (k : ℤ) : codePos S k = predQ S k := by
  rw [codePos, predQ]
  push_cast
  ring

/-! ## C1: query soundness of the read-only index -/

/-- C1: for every non-empty sorted input and every key `k` present in it, the
index of `k`'s first occurrence lies in `[lo, hi]` as returned by
`get_approx_pos(k)`. -/
theorem c1_query_soundness (E : ℕ) (hE : 0 < E) (data : List ℤ)
    (hne : data ≠ []) (hs : data.Pairwise (· ≤ ·)) (k : ℤ) (hk : k ∈ data) :
    (getApproxPos E (buildFitingTree E data) k).lo ≤ data.indexOf k ∧
    data.indexOf k ≤ (getApproxPos E (buildFitingTree E data) k).hi := by
  have he : (0 : ℤ) ≤ (E : ℤ) := by positivity
  have hLE : (pairsOf data).Pairwise keyLE := pairsFrom_pairwise data 0 hs
  have hLT : (dedupAll (pairsOf data)).Pairwise keyLT := dedupAll_pairwise _ hLE
  have hcov := getAllSegments_covers (E : ℤ) he (pairsOf data) hLT
  have hfind := pairsFrom_find data 0 k hk
  have hmem : ((k, (data.indexOf k : ℤ)) : ℤ × ℤ) ∈ dedupAll (pairsOf data) := by
    have := find_mem_dedupAll (pairsOf data) k _ hLE hfind
    simpa using this
  obtain ⟨l₁, S, l₂, heq, h1, h2, h3, h4, h5⟩ := covers_find (E : ℤ) hcov hLT _ hmem
  have hpred : predecessor (buildFitingTree E data).segments k = some S := by
    show predecessor (getAllSegments (E : ℤ) (pairsOf data)) k = some S
    rw [heq]
    exact predecessor_eq_some l₁ S l₂ k h1 (fun T hT => h5 T hT)
  have hn : ¬ (buildFitingTree E data).n = 0 := by
    show ¬ data.length = 0
    simpa using hne
  have hidx : data.indexOf k < data.length := List.indexOf_lt_length.mpr hk
  -- the error bound in usable form
  have hJ1 : predQ S k - (E : ℚ) ≤ (data.indexOf k : ℚ) := by
    have := (abs_le.mp h3).1
    push_cast at this ⊢
    linarith
  have hJ2 : (data.indexOf k : ℚ) ≤ predQ S k + (E : ℚ) := by
    have := (abs_le.mp h3).2
    push_cast at this ⊢
    linarith
  have hJn : (data.indexOf k : ℚ) < ((buildFitingTree E data).n : ℚ) := by
    show (data.indexOf k : ℚ) < (data.length : ℚ)
    exact_mod_cast hidx
  have hover : ¬ (codePos S k - (E : ℚ) > ((buildFitingTree E data).n : ℚ)) := by
    rw [codePos_eq_predQ]
    push_neg
    linarith
  rw [getApproxPos, if_neg hn, hpred]
  dsimp only
  rw [if_neg hover]
  constructor
  · -- lo ≤ indexOf
    show (if codePos S k ≤ (E : ℚ) then 0
          else ratToU64 (codePos S k - (E : ℚ))) ≤ data.indexOf k
    by_cases hlo : codePos S k ≤ (E : ℚ)
    · rw [if_pos hlo]
      exact Nat.zero_le _
    · rw [if_neg hlo, ratToU64]
      rw [Int.toNat_le]
      have hfl : ((Int.floor (codePos S k - (E : ℚ)) : ℤ) : ℚ) ≤ (data.indexOf k : ℚ) := by
        refine (Int.floor_le _).trans ?_
        rw [codePos_eq_predQ]
        exact hJ1
      exact_mod_cast hfl
  · -- indexOf ≤ hi
    show data.indexOf k ≤
        (if codePos S k + (E : ℚ) ≥ ((buildFitingTree E data).n : ℚ)
         then (buildFitingTree E data).n
         else ratToU64 (codePos S k + (E : ℚ)))
    by_cases hhi : codePos S k + (E : ℚ) ≥ ((buildFitingTree E data).n : ℚ)
    · rw [if_pos hhi]
      exact le_of_lt hidx
    · rw [if_neg hhi, ratToU64]
      have hfl : (data.indexOf k : ℤ) ≤ Int.floor (codePos S k + (E : ℚ)) := by
        rw [Int.le_floor, codePos_eq_predQ]
        push_cast
        exact hJ2
      have := Int.toNat_le_toNat hfl
      simpa using this

/-- Witness for `c1_query_soundness`: data `[10, 20, 30]`, `E = 64`, `k = 20`. -/
theorem c1_query_soundness_witness :
    (getApproxPos 64 (buildFitingTree 64 [10, 20, 30]) 20).lo
        ≤ ([10, 20, 30] : List ℤ).indexOf 20 ∧
    ([10, 20, 30] : List ℤ).indexOf 20
        ≤ (getApproxPos 64 (buildFitingTree 64 [10, 20, 30]) 20).hi :=
  c1_query_soundness 64 (by decide) [10, 20, 30] (by decide) (by decide) 20 (by decide)

/-! ## C2: the segmentation error bound -/

/-- C2: for every sorted input and error `ε > 0`, every deduplicated pair
`(kᵢ, i)` covered by an emitted segment `S` satisfies
`|i − (S.start_pos + S.slope·(kᵢ − S.start_key))| ≤ ε + 1` (the exact-rational
model satisfies the stronger bound `≤ ε`; the `+1` absorbs the `long double`
midpoint rounding). -/
theorem c2_error_bound (e : ℤ) (he : 0 < e) (data : List ℤ)
    (hs : data.Pairwise (· ≤ ·))
    (p : ℤ × ℤ) (hp : p ∈ dedupAll (pairsOf data))
    (S : Segment) (hS : S ∈ getAllSegments e (pairsOf data))
    (hc1 : S.start_key ≤ p.1) (hc2 : p.1 ≤ S.end_key) :
    |(p.2 : ℚ) - ((S.start_pos : ℚ) + S.slope * ((p.1 : ℚ) - (S.start_key : ℚ)))|
      ≤ (e : ℚ) + 1 := by
  have hLE : (pairsOf data).Pairwise keyLE := pairsFrom_pairwise data 0 hs
  have hLT : (dedupAll (pairsOf data)).Pairwise keyLT := dedupAll_pairwise _ hLE
  have hcov := getAllSegments_covers e he.le (pairsOf data) hLT
  obtain ⟨S', ⟨hS'm, h1, h2, h3⟩, huniq⟩ := covers_unique e hcov hLT p hp
  have hSS : S = S' := huniq S hS hc1 hc2
  subst hSS
  calc |(p.2 : ℚ) - ((S.start_pos : ℚ) + S.slope * ((p.1 : ℚ) - (S.start_key : ℚ)))|
      = |(p.2 : ℚ) - predQ S p.1| := by rw [predQ]
    _ ≤ (e : ℚ) := h3
    _ ≤ (e : ℚ) + 1 := by linarith

/-- Witness for `c2_error_bound`: data `[10, 20, 30]`, `ε = 64`, the pair
`(20, 1)` covered by the single emitted segment `(10, 0, 30, 1/10)`. -/
theorem c2_error_bound_witness :
    |((1 : ℤ) : ℚ) - (((0 : ℤ) : ℚ) + (1 / 10 : ℚ) * (((20 : ℤ) : ℚ) - ((10 : ℤ) : ℚ)))|
      ≤ ((64 : ℤ) : ℚ) + 1 :=
  c2_error_bound 64 (by decide) [10, 20, 30] (by decide) (20, 1) (by decide)
    ⟨10, 0, 30, 1 / 10⟩
    (by
      have h : getAllSegments 64 (pairsOf [10, 20, 30]) = [⟨10, 0, 30, 1 / 10⟩] := by
        norm_num [getAllSegments, pairsOf, pairsFrom, segLoop, PLM.addPoint, PLM.init,
          psub, sLt, sGt, PLM.getSegment, Slope.val]
      rw [h]
      exact List.mem_singleton_self _)
    (by decide) (by decide)

/-! ## C7: partition of the key space by the emitted segments -/

/-- C7: for every sorted input, the emitted segments have strictly increasing
start keys with pairwise disjoint, stream-partitioning key ranges, and every
deduplicated input pair lies within exactly one segment's
`[start_key, end_key]` interval. -/
theorem c7_coverage (e : ℤ) (he : 0 < e) (data : List ℤ)
    (hs : data.Pairwise (· ≤ ·)) :
    (getAllSegments e (pairsOf data)).Pairwise (fun S T => S.end_key < T.start_key) ∧
    (∀ S ∈ getAllSegments e (pairsOf data), S.start_key ≤ S.end_key) ∧
    (getAllSegments e (pairsOf data)).Pairwise (fun S T => S.start_key < T.start_key) ∧
    ∀ p ∈ dedupAll (pairsOf data),
      ∃! S, S ∈ getAllSegments e (pairsOf data) ∧
        S.start_key ≤ p.1 ∧ p.1 ≤ S.end_key := by
  have hLE : (pairsOf data).Pairwise keyLE := pairsFrom_pairwise data 0 hs
  have hLT : (dedupAll (pairsOf data)).Pairwise keyLT := dedupAll_pairwise _ hLE
  have hcov := getAllSegments_covers e he.le (pairsOf data) hLT
  have hsorted := covers_sorted e hcov hLT
  have hbounds := covers_key_bounds e hcov hLT
  refine ⟨hsorted, fun S hS => (hbounds S hS).2.2, ?_, ?_⟩
  · refine hsorted.imp_of_mem ?_
    intro S T hS hT hrel
    exact lt_of_le_of_lt (hbounds S hS).2.2 hrel
  · intro p hp
    obtain ⟨S, ⟨hSm, h1, h2, h3⟩, huniq⟩ := covers_unique e hcov hLT p hp
    refine ⟨S, ⟨hSm, h1, h2⟩, ?_⟩
    rintro T ⟨hTm, hT1, hT2⟩
    exact huniq T hTm hT1 hT2

/-! ## C10: the implicit cone invariant -/

theorem mid_in_cone (m : PLM) (h : ConeOK m) (h2 : 2 ≤ m.points_in_segment) :
    m.lower_slope.val ≤ (m.getSegment).slope ∧
    (m.getSegment).slope ≤ m.upper_slope.val := by
  obtain ⟨-, -, hlu⟩ := h h2
  rw [getSegment_ne_one m (by omega)]
  constructor
  · show m.lower_slope.val ≤ (m.upper_slope.val + m.lower_slope.val) / 2
    linarith
  · show (m.upper_slope.val + m.lower_slope.val) / 2 ≤ m.upper_slope.val
    linarith

/-- C10: whenever at least two points are in the active segment, the exact
rational lower slope is at most the upper slope; every accepting `add_point`
call on a point with a strictly larger key preserves this, and the midpoint
slope emitted by `get_segment` then lies within the cone. -/
theorem c10_cone_invariant (m : PLM) (x y : ℤ) (he : 0 ≤ m.error)
    (hx : m.first_point.x < x) (hcone : ConeOK m)
    (hacc : (m.addPoint x y).1 = true) :
    ConeOK (m.addPoint x y).2 ∧
    (2 ≤ (m.addPoint x y).2.points_in_segment →
      (m.addPoint x y).2.lower_slope.val ≤ ((m.addPoint x y).2.getSegment).slope ∧
      ((m.addPoint x y).2.getSegment).slope ≤ (m.addPoint x y).2.upper_slope.val) := by
  have hdx : (0 : ℤ) < x - m.first_point.x := by omega
  have hdxq : (0 : ℚ) < ((x - m.first_point.x : ℤ) : ℚ) := by exact_mod_cast hdx
  have heq : (0 : ℚ) ≤ (m.error : ℚ) := by exact_mod_cast he
  have key : ConeOK (m.addPoint x y).2 := by
    by_cases h0 : m.points_in_segment = 0
    · rw [addPoint_zero m x y h0]
      intro hc
      simp at hc
    · by_cases h1 : m.points_in_segment = 1
      · rw [addPoint_one m x y h1]
        rintro -
        refine ⟨by simpa [psub] using hdx, by simpa [psub] using hdx, ?_⟩
        show Slope.val (psub ⟨x, y - m.error⟩ m.first_point)
            ≤ Slope.val (psub ⟨x, y + m.error⟩ m.first_point)
        simp only [psub, Slope.val]
        apply div_le_div_same_pos ?_ hdxq
        push_cast
        linarith
      · have hge : 2 ≤ m.points_in_segment := by omega
        obtain ⟨hldx, hudx, hlu⟩ := hcone hge
        have hsdx : 0 < (psub ⟨x, y⟩ m.first_point).dx := by simpa [psub] using hdx
        cases htest : (sLt (psub ⟨x, y⟩ m.first_point) m.lower_slope
            || sGt (psub ⟨x, y⟩ m.first_point) m.upper_slope) with
        | true =>
          rw [addPoint_ge2_rej m x y hge htest] at hacc
          simp at hacc
        | false =>
          simp only [Bool.or_eq_false_iff] at htest
          obtain ⟨hA, hB⟩ := htest
          have hls : m.lower_slope.val ≤ (psub ⟨x, y⟩ m.first_point).val := by
            by_contra hc
            have := (sLt_iff_val_lt _ _ hsdx hldx).mpr (lt_of_not_le hc)
            rw [hA] at this
            exact Bool.noConfusion this
          have hsu : (psub ⟨x, y⟩ m.first_point).val ≤ m.upper_slope.val := by
            by_contra hc
            have := (sGt_iff_val_gt _ _ hsdx hudx).mpr (lt_of_not_le hc)
            rw [hB] at this
            exact Bool.noConfusion this
          have hLWdx : 0 < (psub ⟨x, y - m.error⟩ m.first_point).dx := by
            simpa [psub] using hdx
          have hUPdx : 0 < (psub ⟨x, y + m.error⟩ m.first_point).dx := by
            simpa [psub] using hdx
          have hLWs : (psub ⟨x, y - m.error⟩ m.first_point).val
              ≤ (psub ⟨x, y⟩ m.first_point).val := by
            simp only [psub, Slope.val]
            apply div_le_div_same_pos ?_ hdxq
            push_cast
            linarith
          have hsUP : (psub ⟨x, y⟩ m.first_point).val
              ≤ (psub ⟨x, y + m.error⟩ m.first_point).val := by
            simp only [psub, Slope.val]
            apply div_le_div_same_pos ?_ hdxq
            push_cast
            linarith
          rw [addPoint_ge2_acc m x y hge (by simp [hA, hB])]
          rintro -
          by_cases hu : sLt (psub ⟨x, y + m.error⟩ m.first_point) m.upper_slope = true <;>
            by_cases hl : sGt (psub ⟨x, y - m.error⟩ m.first_point) m.lower_slope = true
          · rw [if_pos hu, if_pos hl]
            exact ⟨hLWdx, hUPdx, hLWs.trans hsUP⟩
          · rw [if_pos hu, if_neg hl]
            exact ⟨hldx, hUPdx, hls.trans hsUP⟩
          · rw [if_neg hu, if_pos hl]
            exact ⟨hLWdx, hudx, hLWs.trans hsu⟩
          · rw [if_neg hu, if_neg hl]
            exact ⟨hldx, hudx, hlu⟩
  exact ⟨key, fun h2 => mid_in_cone _ key h2⟩

/-- Witness for `c10_cone_invariant` at the two-point state anchored at
`(0, 0)` with `ε = 1` and second point `(1, 1)`, accepting `(2, 2)`. -/
theorem c10_cone_invariant_witness :
    ConeOK ((⟨1, ⟨0, 0⟩, ⟨1, 1⟩, ⟨1, 0⟩, ⟨1, 2⟩, 2⟩ : PLM).addPoint 2 2).2 ∧
    (2 ≤ ((⟨1, ⟨0, 0⟩, ⟨1, 1⟩, ⟨1, 0⟩, ⟨1, 2⟩, 2⟩ : PLM).addPoint 2 2).2.points_in_segment →
      ((⟨1, ⟨0, 0⟩, ⟨1, 1⟩, ⟨1, 0⟩, ⟨1, 2⟩, 2⟩ : PLM).addPoint 2 2).2.lower_slope.val
          ≤ (((⟨1, ⟨0, 0⟩, ⟨1, 1⟩, ⟨1, 0⟩, ⟨1, 2⟩, 2⟩ : PLM).addPoint 2 2).2.getSegment).slope ∧
      (((⟨1, ⟨0, 0⟩, ⟨1, 1⟩, ⟨1, 0⟩, ⟨1, 2⟩, 2⟩ : PLM).addPoint 2 2).2.getSegment).slope
          ≤ ((⟨1, ⟨0, 0⟩, ⟨1, 1⟩, ⟨1, 0⟩, ⟨1, 2⟩, 2⟩ : PLM).addPoint 2 2).2.upper_slope.val) :=
  c10_cone_invariant ⟨1, ⟨0, 0⟩, ⟨1, 1⟩, ⟨1, 0⟩, ⟨1, 2⟩, 2⟩ 2 2 (by decide) (by decide)
    (by
      rintro -
      refine ⟨by decide, by decide, ?_⟩
      norm_num [Slope.val])
    (by decide)

/-! ## C8: the construction-time error check -/

/-- C8 counterexample: constructing a `PiecewiseLinearModel` with `error = 0`
is NOT rejected — the constructor throws only for `error < 0`
(piecewise_linear_model.h lines 72–78), so the claim that ε = 0 fails
construction is false. -/
theorem c8_counterexample : plmInitChecked 0 ≠ none := by decide

/-- C8 amended: `PiecewiseLinearModel` construction is rejected exactly when
the error is negative; `error = 0` is accepted.  (The tree templates reject
`Error = 0` and `Error ≤ BufferSize` separately, at compile time, via
`static_assert`.) -/
theorem c8_amended : ∀ e : ℤ, plmInitChecked e = none ↔ e < 0 := by
  intro e
  rw [plmInitChecked]
  by_cases h : e < 0
  · simp [h]
  · simp [h]

/-! ## C3: out-of-range queries -/

theorem getAllSegments_64_eval :
    getAllSegments 64 (pairsOf [10, 20, 30]) = [⟨10, 0, 30, 1 / 10⟩] := by
  norm_num [getAllSegments, pairsOf, pairsFrom, segLoop, PLM.addPoint, PLM.init,
    psub, sLt, sGt, PLM.getSegment, Slope.val]

theorem ratToU64_eval (q : ℚ) (z : ℕ) (h1 : (z : ℚ) ≤ q) (h2 : q < z + 1) :
    ratToU64 q = z := by
  rw [ratToU64]
  have hz : Int.floor q = (z : ℤ) := by
    rw [Int.floor_eq_iff]
    constructor
    · exact_mod_cast h1
    · push_cast
      exact_mod_cast h2
  rw [hz]
  simp

theorem getApproxPos_64_31_eval :
    getApproxPos 64 (buildFitingTree 64 [10, 20, 30]) 31 = ⟨2, 3, 0⟩ := by
  have hpred : predecessor (buildFitingTree 64 [10, 20, 30]).segments 31
      = some ⟨10, 0, 30, 1 / 10⟩ := by
    show predecessor (getAllSegments 64 (pairsOf [10, 20, 30])) 31 = _
    rw [getAllSegments_64_eval]
    rfl
  have hn : ¬ (buildFitingTree 64 [10, 20, 30]).n = 0 := by decide
  have hcp : codePos ⟨10, 0, 30, 1 / 10⟩ 31 = 21 / 10 := by
    norm_num [codePos]
  have hn3 : (buildFitingTree 64 [10, 20, 30]).n = 3 := rfl
  rw [getApproxPos, if_neg hn, hpred]
  dsimp only
  rw [hcp, hn3]
  rw [if_neg (by norm_num), if_pos (by norm_num), if_pos (by norm_num)]
  rw [ratToU64_eval (21 / 10) 2 (by norm_num) (by norm_num)]

/-- C3 counterexample: on data `[10, 20, 30]` with ε = 64 the query key `31`
exceeds the largest key, yet `get_approx_pos(31)` returns
`{pos = 2, hi = 3, lo = 0}` — not the claimed `{n−1, n, n−1}` triple under
either field reading `{pos, hi, lo}` or `{pos, lo, hi}`. -/
theorem c3_counterexample :
    getApproxPos 64 (buildFitingTree 64 [10, 20, 30]) 31 ≠ ⟨2, 3, 2⟩ ∧
    getApproxPos 64 (buildFitingTree 64 [10, 20, 30]) 31 ≠ ⟨2, 2, 3⟩ := by
  rw [getApproxPos_64_31_eval]
  exact ⟨by decide, by decide⟩

/-- C3 amended: the result struct is field-ordered `{pos, hi, lo}`.  For
`k` below the smallest key the query returns `{0, ε, 0}` (so `hi = ε`,
`lo = 0`); the `{n−1, n, n−1}` triple is returned exactly when the predicted
position satisfies `pos − ε > n` — which holds for keys far beyond the largest
key but NOT for every `k > max`. -/
theorem c3_amended (E : ℕ) (hE : 0 < E) (data : List ℤ) (hne : data ≠ [])
    (hs : data.Pairwise (· ≤ ·)) (k : ℤ) :
    (k < data.headD 0 → getApproxPos E (buildFitingTree E data) k = ⟨0, E, 0⟩) ∧
    (∀ S, predecessor (buildFitingTree E data).segments k = some S →
      codePos S k - (E : ℚ) > ((buildFitingTree E data).n : ℚ) →
      getApproxPos E (buildFitingTree E data) k
        = ⟨(buildFitingTree E data).n - 1, (buildFitingTree E data).n,
           (buildFitingTree E data).n - 1⟩) := by
  have he : (0 : ℤ) ≤ (E : ℤ) := by positivity
  have hLE : (pairsOf data).Pairwise keyLE := pairsFrom_pairwise data 0 hs
  have hLT : (dedupAll (pairsOf data)).Pairwise keyLT := dedupAll_pairwise _ hLE
  have hcov := getAllSegments_covers (E : ℤ) he (pairsOf data) hLT
  have hn : ¬ (buildFitingTree E data).n = 0 := by
    show ¬ data.length = 0
    simpa using hne
  constructor
  · intro hk
    have hpred : predecessor (buildFitingTree E data).segments k = none := by
      apply predecessor_eq_none
      intro T hT
      obtain ⟨⟨q, hq, hTs⟩, -, -⟩ := covers_key_bounds (E : ℤ) hcov hLT T hT
      have hq' : q ∈ pairsOf data := mem_of_mem_dedupAll _ q hq
      have hqd : q.1 ∈ data := (pairsFrom_mem data 0 q hq').1
      have hhead : data.headD 0 ≤ q.1 := by
        cases data with
        | nil => exact absurd rfl hne
        | cons d rest =>
          rcases List.mem_cons.mp hqd with h | h
          · simp [h]
          · have := (List.pairwise_cons.mp hs).1 q.1 h
            simpa using this
      rw [hTs]
      omega
    rw [getApproxPos, if_neg hn, hpred]
  · intro S hS hgt
    rw [getApproxPos, if_neg hn, hS]
    dsimp only
    rw [if_pos hgt]

/-- Witness for `c3_amended` on data `[10, 20, 30]`, ε = 64, at `k = 5` (below
the smallest key) and `k = 1000` (far beyond the largest key). -/
theorem c3_amended_witness :
    getApproxPos 64 (buildFitingTree 64 [10, 20, 30]) 5 = ⟨0, 64, 0⟩ ∧
    getApproxPos 64 (buildFitingTree 64 [10, 20, 30]) 1000 = ⟨2, 3, 2⟩ := by
  constructor
  · exact (c3_amended 64 (by decide) [10, 20, 30] (by decide) (by decide) 5).1
      (by decide)
  · exact (c3_amended 64 (by decide) [10, 20, 30] (by decide) (by decide) 1000).2
      ⟨10, 0, 30, 1 / 10⟩
      (by
        show predecessor (getAllSegments 64 (pairsOf [10, 20, 30])) 1000 = _
        rw [getAllSegments_64_eval]
        rfl)
      (by
        show codePos ⟨10, 0, 30, 1 / 10⟩ 1000 - (64 : ℚ) > ((3 : ℕ) : ℚ)
        norm_num [codePos])

/-- Witness for `c7_coverage` at `ε = 64` and data `[10, 20, 30]`. -/
theorem c7_coverage_witness :
    (getAllSegments 64 (pairsOf [10, 20, 30])).Pairwise
      (fun S T => S.end_key < T.start_key) ∧
    (∀ S ∈ getAllSegments 64 (pairsOf [10, 20, 30]), S.start_key ≤ S.end_key) ∧
    (getAllSegments 64 (pairsOf [10, 20, 30])).Pairwise
      (fun S T => S.start_key < T.start_key) ∧
    ∀ p ∈ dedupAll (pairsOf [10, 20, 30]),
      ∃! S, S ∈ getAllSegments 64 (pairsOf [10, 20, 30]) ∧
        S.start_key ≤ p.1 ∧ p.1 ≤ S.end_key :=
  c7_coverage 64 (by decide) [10, 20, 30] (by decide)

/-! ## C6: `insert_buffer` semantics -/

/-- C6 counterexample: with a non-deleted item of key 5 already in the buffer
and the buffer not full, `insert_buffer(5, 7)` returns true but does NOT leave
the segment unchanged: the map is unchanged yet `buffer_size` still increments
(the claimed idempotence check does not exist; `keys` is never consulted). -/
theorem c6_counterexample :
    (insertBuffer ⟨0, 0, 100, 0, [], [⟨5, 9, false⟩], 1, 32⟩ 5 7).1 = true ∧
    (insertBuffer ⟨0, 0, 100, 0, [], [⟨5, 9, false⟩], 1, 32⟩ 5 7).2.buffer
      = [⟨5, 9, false⟩] ∧
    (insertBuffer ⟨0, 0, 100, 0, [], [⟨5, 9, false⟩], 1, 32⟩ 5 7).2.buffer_size = 2 :=
  ⟨by decide, by decide, by decide⟩

/-- C6 amended: `insert_buffer(k, p)` returns false exactly when the buffer is
full (`buffer_size = B`, under the reachable-state invariant
`buffer_size ≤ B`), leaving the state unchanged; otherwise it returns true,
performs the `std::map` insert — a no-op on the map when `k` is already a
buffer key — and ALWAYS increments `buffer_size`.  `keys` is never consulted,
so the insert is not idempotent on segment state. -/
theorem c6_amended (s : BufSeg) (k p : ℤ)
    (hle : s.buffer_size ≤ s.max_buffer_size) :
    ((insertBuffer s k p).1 = false ↔ s.buffer_size = s.max_buffer_size) ∧
    ((insertBuffer s k p).1 = false → (insertBuffer s k p).2 = s) ∧
    ((insertBuffer s k p).1 = true →
      (insertBuffer s k p).2 = { s with buffer := mapInsert k p s.buffer,
                                        buffer_size := s.buffer_size + 1 }) := by
  rw [insertBuffer]
  by_cases h : s.max_buffer_size ≤ s.buffer_size
  · rw [if_pos h]
    exact ⟨⟨fun _ => by omega, fun _ => rfl⟩, fun _ => rfl,
           fun h' => Bool.noConfusion h'⟩
  · rw [if_neg h]
    exact ⟨⟨fun h' => Bool.noConfusion h',
            fun heq => absurd (le_of_eq heq.symm) h⟩,
           fun h' => Bool.noConfusion h', fun _ => rfl⟩

/-- Witness for `c6_amended` on a segment with one buffered item (size 1,
capacity 32) and a fresh key 7. -/
theorem c6_amended_witness :
    (⟨0, 0, 100, 0, [], [⟨5, 9, false⟩], 1, 32⟩ : BufSeg).buffer_size
      ≤ (⟨0, 0, 100, 0, [], [⟨5, 9, false⟩], 1, 32⟩ : BufSeg).max_buffer_size ∧
    (((insertBuffer ⟨0, 0, 100, 0, [], [⟨5, 9, false⟩], 1, 32⟩ 7 3).1 = false
        ↔ (⟨0, 0, 100, 0, [], [⟨5, 9, false⟩], 1, 32⟩ : BufSeg).buffer_size
          = (⟨0, 0, 100, 0, [], [⟨5, 9, false⟩], 1, 32⟩ : BufSeg).max_buffer_size) ∧
     ((insertBuffer ⟨0, 0, 100, 0, [], [⟨5, 9, false⟩], 1, 32⟩ 7 3).1 = false →
        (insertBuffer ⟨0, 0, 100, 0, [], [⟨5, 9, false⟩], 1, 32⟩ 7 3).2
          = ⟨0, 0, 100, 0, [], [⟨5, 9, false⟩], 1, 32⟩) ∧
     ((insertBuffer ⟨0, 0, 100, 0, [], [⟨5, 9, false⟩], 1, 32⟩ 7 3).1 = true →
        (insertBuffer ⟨0, 0, 100, 0, [], [⟨5, 9, false⟩], 1, 32⟩ 7 3).2
          = { (⟨0, 0, 100, 0, [], [⟨5, 9, false⟩], 1, 32⟩ : BufSeg) with
              buffer := mapInsert 7 3 [⟨5, 9, false⟩], buffer_size := 2 })) :=
  ⟨by decide, c6_amended ⟨0, 0, 100, 0, [], [⟨5, 9, false⟩], 1, 32⟩ 7 3 (by decide)⟩

/-! ## Concrete evaluations for the buffered tree (C4 and C5) -/

theorem getAllSegments_2_eval :
    getAllSegments 2 (pairsOf [10, 20, 30]) = [⟨10, 0, 30, 1 / 10⟩] := by
  norm_num [getAllSegments, pairsOf, pairsFrom, segLoop, PLM.addPoint, PLM.init,
    psub, sLt, sGt, PLM.getSegment, Slope.val]

theorem buildBufTree_eval :
    buildBufTree 3 1 [10, 20, 30]
      = ⟨3, 10, [⟨10, 0, 30, 1 / 10,
          [⟨10, 0, false⟩, ⟨20, 1, false⟩, ⟨30, 2, false⟩], [], 0, 1⟩]⟩ := by
  rw [buildBufTree]
  have h1 : ((3 : ℕ) : ℤ) - ((1 : ℕ) : ℤ) = 2 := by norm_num
  rw [h1, getAllSegmentsBuffered, getAllSegments_2_eval]
  have hd : dedupAll (pairsOf [10, 20, 30]) = [(10, 0), (20, 1), (30, 2)] := by decide
  rw [hd]
  simp

theorem mergeYield_nil_right (ks : List DataItem) : mergeYield ks [] = ks := by
  cases ks <;> simp [mergeYield]

theorem segYield_S0_eval :
    segYield ⟨10, 0, 30, 1 / 10,
        [⟨10, 0, false⟩, ⟨20, 1, false⟩, ⟨30, 2, false⟩], [], 0, 1⟩
      = [⟨10, 0, false⟩, ⟨20, 1, false⟩, ⟨30, 2, false⟩] := by
  rw [segYield, if_neg (by decide)]
  norm_num [beginSkip, mergeYield_nil_right]

theorem segYield_S1_eval :
    segYield ⟨10, 0, 30, 1 / 10,
        [⟨10, 0, false⟩, ⟨20, 1, false⟩, ⟨30, 2, false⟩], [⟨15, 1, false⟩], 1, 1⟩
      = [⟨10, 0, false⟩, ⟨15, 1, false⟩, ⟨20, 1, false⟩, ⟨30, 2, false⟩] := by
  rw [segYield, if_neg (by decide)]
  norm_num [beginSkip, mergeYield, mergeYield_nil_right]

theorem bfind_T0_15_eval :
    bfind 3 ⟨3, 10, [⟨10, 0, 30, 1 / 10,
        [⟨10, 0, false⟩, ⟨20, 1, false⟩, ⟨30, 2, false⟩], [], 0, 1⟩]⟩ 15 = none := by
  norm_num [bfind, predecessorB, bufSegSize, segYield_S0_eval, ratCeilNat]
  decide

theorem bfind_T0_20_eval :
    bfind 3 ⟨3, 10, [⟨10, 0, 30, 1 / 10,
        [⟨10, 0, false⟩, ⟨20, 1, false⟩, ⟨30, 2, false⟩], [], 0, 1⟩]⟩ 20
      = some ⟨20, 1, false⟩ := by
  norm_num [bfind, predecessorB, bufSegSize, segYield_S0_eval, ratCeilNat]
  decide

theorem binsert_T0_15_eval :
    binsert 3 1 ⟨3, 10, [⟨10, 0, 30, 1 / 10,
        [⟨10, 0, false⟩, ⟨20, 1, false⟩, ⟨30, 2, false⟩], [], 0, 1⟩]⟩ 15 1
      = ⟨3, 10, [⟨10, 0, 30, 1 / 10,
          [⟨10, 0, false⟩, ⟨20, 1, false⟩, ⟨30, 2, false⟩], [⟨15, 1, false⟩], 1, 1⟩]⟩ := by
  rw [binsert, bfind_T0_15_eval]
  norm_num [predecessorB, insertBuffer, updateTarget, updatePred, mapInsert]

theorem bfind_T1_25_eval :
    bfind 3 ⟨3, 10, [⟨10, 0, 30, 1 / 10,
        [⟨10, 0, false⟩, ⟨20, 1, false⟩, ⟨30, 2, false⟩], [⟨15, 1, false⟩], 1, 1⟩]⟩ 25
      = none := by
  norm_num [bfind, predecessorB, bufSegSize, segYield_S1_eval, ratCeilNat]
  decide

theorem mergeBuffer_S1_eval :
    mergeBuffer ⟨10, 0, 30, 1 / 10,
        [⟨10, 0, false⟩, ⟨20, 1, false⟩, ⟨30, 2, false⟩], [⟨15, 1, false⟩], 1, 1⟩ 25 2
      = [(10, 0), (15, 1), (20, 1), (25, 2), (30, 2)] := by
  norm_num [mergeBuffer, mergeBufferAux, segYield_S1_eval]

theorem getAllSegments_merged_eval :
    getAllSegments 2 [(10, 0), (15, 1), (20, 1), (25, 2), (30, 2)]
      = [⟨10, 0, 30, 1 / 10⟩] := by
  norm_num [getAllSegments, segLoop, PLM.addPoint, PLM.init,
    psub, sLt, sGt, PLM.getSegment, Slope.val]

theorem binsert_T1_25_eval :
    binsert 3 1 ⟨3, 10, [⟨10, 0, 30, 1 / 10,
        [⟨10, 0, false⟩, ⟨20, 1, false⟩, ⟨30, 2, false⟩], [⟨15, 1, false⟩], 1, 1⟩]⟩ 25 2
      = ⟨3, 10, [⟨10, 0, 30, 1 / 10,
          [⟨10, 0, false⟩, ⟨20, 1, false⟩, ⟨30, 2, false⟩], [⟨15, 1, false⟩], 1, 1⟩]⟩ := by
  rw [binsert, bfind_T1_25_eval]
  have h1 : ((3 : ℕ) : ℤ) - ((1 : ℕ) : ℤ) = 2 := by norm_num
  rw [h1]
  norm_num [predecessorB, insertBuffer, getAllSegmentsBuffered,
    mergeBuffer_S1_eval, getAllSegments_merged_eval]

/-! ## C5: the overflow splice loses the replacement segment -/

/-- C5: on the failing input — `BufferedFitingTree` with ε = 3, B = 1
bulk-loaded from `[10, 20, 30]`, then `insert(15, 1)` followed by
`insert(25, 2)` — the second insert overflows the buffer, the merged list does
contain `(25, 2)`, the re-segmentation yields a single replacement segment,
and the insert leaves the whole tree unchanged: the directory still holds the
old overflowing segment, `n` is not updated, and `find(25)` returns `end()`
afterwards (the key is lost), contradicting the claimed
replace-and-insert-and-update-n splice. -/
theorem c5_overflow_noop :
    ((25 : ℤ), (2 : ℤ)) ∈ mergeBuffer ⟨10, 0, 30, 1 / 10,
        [⟨10, 0, false⟩, ⟨20, 1, false⟩, ⟨30, 2, false⟩], [⟨15, 1, false⟩], 1, 1⟩ 25 2 ∧
    binsert 3 1 (binsert 3 1 (buildBufTree 3 1 [10, 20, 30]) 15 1) 25 2
      = binsert 3 1 (buildBufTree 3 1 [10, 20, 30]) 15 1 ∧
    bfind 3 (binsert 3 1 (binsert 3 1 (buildBufTree 3 1 [10, 20, 30]) 15 1) 25 2) 25
      = none := by
  have h0 := buildBufTree_eval
  have h1 := binsert_T0_15_eval
  have h2 := binsert_T1_25_eval
  refine ⟨?_, ?_, ?_⟩
  · rw [mergeBuffer_S1_eval]
    decide
  · rw [h0, h1, h2]
  · rw [h0, h1, h2]
    exact bfind_T1_25_eval

/-! ## C4: iteration yields tombstones -/

theorem berase_T0_20_eval :
    berase 3 ⟨3, 10, [⟨10, 0, 30, 1 / 10,
        [⟨10, 0, false⟩, ⟨20, 1, false⟩, ⟨30, 2, false⟩], [], 0, 1⟩]⟩ 20
      = ⟨3, 10, [⟨10, 0, 30, 1 / 10,
          [⟨10, 0, false⟩, ⟨20, 1, true⟩, ⟨30, 2, false⟩], [], 0, 1⟩]⟩ := by
  rw [berase, bfind_T0_20_eval]
  norm_num [updatePred, markInSeg, markFirst]

/-- C4: on the failing input — bulk-load `[10, 20, 30]` (ε = 3, B = 1), then
`erase(20)` (modelled from intent, since the written `erase` does not compile)
— iterating the tree yields the tombstoned item `(20, 1, deleted)`:
`BufferedSegmentIterator::advance_iterator` never checks the deleted flag
(only `begin()` skips leading tombstones), contradicting the claim that
iteration yields no deleted item and exactly the present keys. -/
theorem c4_tombstone_yield :
    treeYield (berase 3 (buildBufTree 3 1 [10, 20, 30]) 20)
      = [⟨10, 0, false⟩, ⟨20, 1, true⟩, ⟨30, 2, false⟩] ∧
    (⟨20, 1, true⟩ : DataItem) ∈ treeYield (berase 3 (buildBufTree 3 1 [10, 20, 30]) 20)
      ∧ (⟨20, 1, true⟩ : DataItem).is_deleted = true := by
  have h0 := buildBufTree_eval
  have h1 := berase_T0_20_eval
  have hy : treeYield (berase 3 (buildBufTree 3 1 [10, 20, 30]) 20)
      = [⟨10, 0, false⟩, ⟨20, 1, true⟩, ⟨30, 2, false⟩] := by
    rw [h0, h1]
    rw [treeYield, if_neg (by decide)]
    rw [show (⟨3, 10, [⟨10, 0, 30, 1 / 10,
          [⟨10, 0, false⟩, ⟨20, 1, true⟩, ⟨30, 2, false⟩], [], 0, 1⟩]⟩ : BufTree).dir
        = [⟨10, 0, 30, 1 / 10,
          [⟨10, 0, false⟩, ⟨20, 1, true⟩, ⟨30, 2, false⟩], [], 0, 1⟩] from rfl]
    rw [List.map_cons, List.map_nil]
    rw [show segYield ⟨10, 0, 30, 1 / 10,
          [⟨10, 0, false⟩, ⟨20, 1, true⟩, ⟨30, 2, false⟩], [], 0, 1⟩
        = [⟨10, 0, false⟩, ⟨20, 1, true⟩, ⟨30, 2, false⟩] from by
      rw [segYield, if_neg (by decide)]
      norm_num [beginSkip, mergeYield_nil_right]]
    simp
  refine ⟨hy, ?_, rfl⟩
  rw [hy]
  decide

end FitModel
